import Mathlib

/-
Shallow embedding of the ontology graph engine of onto_vae/utils.py.

Python dicts keyed by node-id strings with list values are modelled as
association lists (`List (String × _)`) kept in insertion order, which is
the iteration order of a Python dict.  Dict validity (each key occurs at
most once) is not a structural invariant of the Lean type; where a theorem
needs it, it appears as a `Nodup` hypothesis on the key list.  Python
operations that can raise (`d[k]` on a missing key, `list.remove` on a
missing element) are modelled with `Option`, `none` standing for the raised
exception.
-/

namespace OntoVae

/-- A Python dict mapping node ids to lists of node ids. -/
abbrev AList := List (String × List String)

/-- The keys of a dict, in insertion order (`list(d.keys())`). -/
def keysOf (d : AList) : List String := d.map Prod.fst

/-- `k in d` for a Python dict. -/
def keyMem (d : AList) (k : String) : Bool := d.any (fun p => p.1 == k)

/-- `d[k]` as a total lookup: `some` of the first binding of `k`, else `none`. -/
def lookupD (d : AList) (k : String) : Option (List String) :=
  (d.find? (fun p => p.1 == k)).map Prod.snd

/-- `d[k] = v` on an existing key: rebind every occurrence of `k` (a valid
dict has exactly one).  A key absent from `d` is left absent. -/
def setKey (d : AList) (k : String) (v : List String) : AList :=
  d.map (fun p => if p.1 = k then (k, v) else p)

/-- `del d[k]`, removing the first binding of `k`; identity when `k` is absent. -/
def delKey (d : AList) (k : String) : AList :=
  d.eraseP (fun p => p.1 == k)

/-- `d1.update(d2)` of Python dicts: existing keys of `d1` keep their position
but take `d2`'s value when `d2` has them; keys of `d2` new to `d1` are
appended in `d2`'s order. -/
def dictUpdate (d1 d2 : AList) : AList :=
  d1.map (fun p =>
    match lookupD d2 p.1 with
    | some v => (p.1, v)
    | none => p) ++ d2.filter (fun p => !(keyMem d1 p.1))

/-- One inner step of `reverse_graph` (utils.py lines 14-18): for the edge
`v → e` of the input, ensure `e` is a key of the accumulator (fresh empty
list if not) and append `v` to its list. -/
def addEdge (acc : AList) (e v : String) : AList :=
  if keyMem acc e then
    setKey acc e (((lookupD acc e).getD []) ++ [v])
  else
    acc ++ [(e, [v])]

/-- `reverse_graph` (utils.py lines 12-19): fold over the entries in dict
order and over each entry's list in order. -/
def reverse_graph (graph : AList) : AList :=
  graph.foldl (fun acc p => p.2.foldl (fun a e => addEdge a e p.1) acc) []

/-- The edge relation denoted by a dict: `hasEdge d a b` holds when `a` is
bound to a list containing `b`. -/
def hasEdge (d : AList) (a b : String) : Prop :=
  ∃ l, (a, l) ∈ d ∧ b ∈ l

theorem keyMem_iff_mem_keysOf (d : AList) (k : String) :
    keyMem d k = true ↔ k ∈ keysOf d := by
  simp [keyMem, keysOf, List.any_eq_true]

theorem lookupD_eq_none_iff (d : AList) (k : String) :
    lookupD d k = none ↔ keyMem d k = false := by
  simp [lookupD, keyMem, List.find?_eq_none, List.any_eq_true]

theorem mem_of_lookupD_eq_some {d : AList} {k : String} {l : List String}
    (h : lookupD d k = some l) : (k, l) ∈ d := by
  unfold lookupD at h
  cases hf : d.find? (fun p => p.1 == k) with
  | none => rw [hf] at h; cases h
  | some a =>
    rw [hf] at h
    have ha : a ∈ d := List.mem_of_find?_eq_some hf
    have hk := List.find?_some hf
    have he : a = (k, l) := by
      cases a with
      | mk x y =>
        simp at h hk
        simp [hk, h]
    rwa [he] at ha

theorem lookupD_eq_some_of_mem {d : AList} {k : String} {l : List String}
    (hnd : (keysOf d).Nodup) (h : (k, l) ∈ d) : lookupD d k = some l := by
  induction d with
  | nil => simp at h
  | cons p d ih =>
    rw [keysOf, List.map_cons, List.nodup_cons] at hnd
    rcases List.mem_cons.mp h with h | h
    · rw [← h]
      simp [lookupD]
    · have hne : (p.1 == k) = false := by
        simp only [beq_eq_false_iff_ne, ne_eq]
        intro he
        apply hnd.1
        rw [he]
        exact List.mem_map_of_mem Prod.fst h
      have := ih hnd.2 h
      unfold lookupD at this ⊢
      rwa [List.find?_cons, hne]

theorem lookupD_isSome_of_keyMem {d : AList} {k : String}
    (h : keyMem d k = true) : ∃ l, lookupD d k = some l := by
  cases hl : lookupD d k with
  | none => rw [lookupD_eq_none_iff] at hl; rw [h] at hl; cases hl
  | some l => exact ⟨l, rfl⟩

theorem keysOf_setKey (d : AList) (k : String) (v : List String) :
    keysOf (setKey d k v) = keysOf d := by
  induction d with
  | nil => rfl
  | cons p d ih =>
    simp only [setKey, List.map_cons, keysOf] at ih ⊢
    by_cases h : p.1 = k
    · simp only [if_pos h, List.map_cons, ih]
      rw [h]
    · simp only [if_neg h, List.map_cons, ih]

theorem mem_setKey_self {d : AList} {k : String} (h : keyMem d k = true)
    (v : List String) : (k, v) ∈ setKey d k v := by
  rw [keyMem_iff_mem_keysOf] at h
  rcases List.mem_map.mp h with ⟨p, hp, hfst⟩
  have himg : (if p.1 = k then ((k, v) : String × List String) else p) = (k, v) :=
    if_pos hfst
  rw [← himg]
  exact List.mem_map_of_mem _ hp

theorem mem_setKey_of_ne {d : AList} {k a : String} {v l : List String}
    (hne : a ≠ k) (h : (a, l) ∈ d) : (a, l) ∈ setKey d k v := by
  have himg : (if ((a, l) : String × List String).1 = k then ((k, v) : String × List String) else (a, l)) = (a, l) :=
    if_neg hne
  rw [← himg]
  exact List.mem_map_of_mem _ h

theorem mem_setKey_elim {d : AList} {k a : String} {v l : List String}
    (h : (a, l) ∈ setKey d k v) : (a = k ∧ l = v) ∨ ((a, l) ∈ d ∧ a ≠ k) := by
  rcases List.mem_map.mp h with ⟨p, hp, himg⟩
  by_cases hpk : p.1 = k
  · rw [if_pos hpk] at himg
    left
    have h1 : k = a := congrArg Prod.fst himg
    have h2 : v = l := congrArg Prod.snd himg
    exact ⟨h1.symm, h2.symm⟩
  · rw [if_neg hpk] at himg
    right
    constructor
    · rw [← himg]; exact hp
    · intro ha
      apply hpk
      have hfst : p.1 = a := congrArg Prod.fst himg
      rw [hfst, ha]

theorem keysOf_addEdge (acc : AList) (e v : String) :
    keysOf (addEdge acc e v)
      = if keyMem acc e = true then keysOf acc else keysOf acc ++ [e] := by
  unfold addEdge
  by_cases h : keyMem acc e = true
  · rw [if_pos h, if_pos h, keysOf_setKey]
  · rw [if_neg h, if_neg h]
    simp [keysOf]

theorem nodup_keysOf_addEdge {acc : AList} (hnd : (keysOf acc).Nodup)
    (e v : String) : (keysOf (addEdge acc e v)).Nodup := by
  rw [keysOf_addEdge]
  by_cases h : keyMem acc e = true
  · rw [if_pos h]; exact hnd
  · rw [if_neg h]
    have : e ∉ keysOf acc := by
      intro hm
      exact h ((keyMem_iff_mem_keysOf acc e).mpr hm)
    simp [List.nodup_append, hnd, this]

theorem snd_ne_nil_addEdge {acc : AList} (hv : ∀ p ∈ acc, p.2 ≠ [])
    (e v : String) : ∀ p ∈ addEdge acc e v, p.2 ≠ [] := by
  intro p hp
  unfold addEdge at hp
  by_cases h : keyMem acc e = true
  · rw [if_pos h] at hp
    cases p with
    | mk a l =>
      rcases mem_setKey_elim hp with ⟨_, hl⟩ | ⟨hmem, _⟩
      · subst hl; simp
      · exact hv _ hmem
  · rw [if_neg h] at hp
    rcases List.mem_append.mp hp with hm | hm
    · exact hv _ hm
    · simp at hm
      subst hm
      simp

theorem hasEdge_cons (q : String × List String) (d : AList) (a b : String) :
    hasEdge (q :: d) a b ↔ (a = q.1 ∧ b ∈ q.2) ∨ hasEdge d a b := by
  unfold hasEdge
  constructor
  · rintro ⟨l, hmem, hb⟩
    rcases List.mem_cons.mp hmem with h | h
    · left
      have h1 : a = q.1 := (congrArg Prod.fst h).symm ▸ rfl
      have h2 : l = q.2 := by rw [← h]
      exact ⟨by rw [← h], by rw [← h2]; exact hb⟩
    · exact Or.inr ⟨l, h, hb⟩
  · rintro (⟨ha, hb⟩ | ⟨l, hmem, hb⟩)
    · refine ⟨q.2, ?_, hb⟩
      rw [ha]
      simp
    · exact ⟨l, List.mem_cons_of_mem _ hmem, hb⟩

theorem hasEdge_addEdge {acc : AList} (hnd : (keysOf acc).Nodup)
    (e v x y : String) :
    hasEdge (addEdge acc e v) x y ↔ hasEdge acc x y ∨ (x = e ∧ y = v) := by
  unfold addEdge
  by_cases h : keyMem acc e = true
  · rcases lookupD_isSome_of_keyMem h with ⟨L, hL⟩
    rw [if_pos h, hL]
    simp only [Option.getD_some]
    constructor
    · rintro ⟨l, hmem, hy⟩
      rcases mem_setKey_elim hmem with ⟨hx, hl⟩ | ⟨hmem', _⟩
      · subst hx; subst hl
        rcases List.mem_append.mp hy with hy | hy
        · exact Or.inl ⟨L, mem_of_lookupD_eq_some hL, hy⟩
        · simp at hy; exact Or.inr ⟨rfl, hy⟩
      · exact Or.inl ⟨l, hmem', hy⟩
    · rintro (⟨l, hmem, hy⟩ | ⟨hx, hy⟩)
      · by_cases hx : x = e
        · subst hx
          have hle : l = L := by
            have h2 := lookupD_eq_some_of_mem hnd hmem
            rw [hL] at h2
            exact (Option.some.inj h2).symm
          exact ⟨L ++ [v], mem_setKey_self h _, List.mem_append.mpr (Or.inl (hle ▸ hy))⟩
        · exact ⟨l, mem_setKey_of_ne hx hmem, hy⟩
      · rw [hx, hy]
        exact ⟨L ++ [v], mem_setKey_self h _, by simp⟩
  · rw [if_neg h]
    constructor
    · rintro ⟨l, hmem, hy⟩
      rcases List.mem_append.mp hmem with hm | hm
      · exact Or.inl ⟨l, hm, hy⟩
      · simp at hm
        rcases hm with ⟨hx, hl⟩
        subst hx; subst hl
        simp at hy
        exact Or.inr ⟨rfl, hy⟩
    · rintro (⟨l, hmem, hy⟩ | ⟨hx, hy⟩)
      · exact ⟨l, List.mem_append.mpr (Or.inl hmem), hy⟩
      · rw [hx, hy]
        exact ⟨[v], List.mem_append.mpr (Or.inr (by simp)), by simp⟩

theorem nodup_keysOf_foldl_addEdge (v : String) :
    ∀ (l : List String) (acc : AList), (keysOf acc).Nodup →
      (keysOf (l.foldl (fun a e => addEdge a e v) acc)).Nodup := by
  intro l
  induction l with
  | nil => intro acc h; exact h
  | cons e l ih =>
    intro acc h
    rw [List.foldl_cons]
    exact ih _ (nodup_keysOf_addEdge h e v)

theorem snd_ne_nil_foldl_addEdge (v : String) :
    ∀ (l : List String) (acc : AList), (∀ p ∈ acc, p.2 ≠ []) →
      ∀ p ∈ l.foldl (fun a e => addEdge a e v) acc, p.2 ≠ [] := by
  intro l
  induction l with
  | nil => intro acc h; exact h
  | cons e l ih =>
    intro acc h
    rw [List.foldl_cons]
    exact ih _ (snd_ne_nil_addEdge h e v)

theorem hasEdge_foldl_addEdge (v x y : String) :
    ∀ (l : List String) (acc : AList), (keysOf acc).Nodup →
      (hasEdge (l.foldl (fun a e => addEdge a e v) acc) x y ↔
        hasEdge acc x y ∨ (x ∈ l ∧ y = v)) := by
  intro l
  induction l with
  | nil => intro acc _; simp
  | cons e l ih =>
    intro acc h
    rw [List.foldl_cons, ih _ (nodup_keysOf_addEdge h e v),
      hasEdge_addEdge h e v x y, List.mem_cons]
    tauto

theorem nodup_keysOf_revAux :
    ∀ (g : AList) (acc : AList), (keysOf acc).Nodup →
      (keysOf (g.foldl (fun acc p => p.2.foldl (fun a e => addEdge a e p.1) acc) acc)).Nodup := by
  intro g
  induction g with
  | nil => intro acc h; exact h
  | cons p g ih =>
    intro acc h
    rw [List.foldl_cons]
    exact ih _ (nodup_keysOf_foldl_addEdge p.1 p.2 acc h)

theorem snd_ne_nil_revAux :
    ∀ (g : AList) (acc : AList), (∀ p ∈ acc, p.2 ≠ []) →
      ∀ q ∈ g.foldl (fun acc p => p.2.foldl (fun a e => addEdge a e p.1) acc) acc, q.2 ≠ [] := by
  intro g
  induction g with
  | nil => intro acc h; exact h
  | cons p g ih =>
    intro acc h
    rw [List.foldl_cons]
    exact ih _ (snd_ne_nil_foldl_addEdge p.1 p.2 acc h)

theorem hasEdge_revAux (x y : String) :
    ∀ (g : AList) (acc : AList), (keysOf acc).Nodup →
      (hasEdge (g.foldl (fun acc p => p.2.foldl (fun a e => addEdge a e p.1) acc) acc) x y ↔
        hasEdge acc x y ∨ hasEdge g y x) := by
  intro g
  induction g with
  | nil =>
    intro acc _
    simp [hasEdge]
  | cons p g ih =>
    intro acc h
    rw [List.foldl_cons, ih _ (nodup_keysOf_foldl_addEdge p.1 p.2 acc h),
      hasEdge_foldl_addEdge p.1 x y p.2 acc h, hasEdge_cons]
    tauto

theorem nodup_keysOf_reverse_graph (g : AList) :
    (keysOf (reverse_graph g)).Nodup := by
  unfold reverse_graph
  exact nodup_keysOf_revAux g [] (by simp [keysOf])

theorem snd_ne_nil_reverse_graph (g : AList) :
    ∀ p ∈ reverse_graph g, p.2 ≠ [] := by
  unfold reverse_graph
  exact snd_ne_nil_revAux g [] (by simp)

theorem hasEdge_reverse_graph (g : AList) (x y : String) :
    hasEdge (reverse_graph g) x y ↔ hasEdge g y x := by
  unfold reverse_graph
  rw [hasEdge_revAux x y g [] (by simp [keysOf])]
  simp [hasEdge]

/-- C5: for every graph mapping with no duplicate edges (valid dict: keys
occur once; and each parent list free of duplicates), applying
`reverse_graph` twice yields a mapping with exactly the same edge set as the
original: the edge `a → b` is present in `reverse_graph (reverse_graph g)`
iff it is present in `g`.  (Purity is inherent to the embedding: the Python
function only reads its argument and builds a fresh dict.) -/
theorem reverse_graph_involutive_edge_set (g : AList)
    (hkeys : (keysOf g).Nodup) (hvals : ∀ p ∈ g, p.2.Nodup) :
    ∀ a b, hasEdge (reverse_graph (reverse_graph g)) a b ↔ hasEdge g a b := by
  intro a b
  rw [hasEdge_reverse_graph, hasEdge_reverse_graph]

/-- Witness for C5 at the term slice of the spec's worked example. -/
theorem reverse_graph_involutive_edge_set_witness :
    hasEdge (reverse_graph (reverse_graph [("T3", ["T2"]), ("T2", ["T1"])])) "T3" "T2" := by
  have h := reverse_graph_involutive_edge_set [("T3", ["T2"]), ("T2", ["T1"])]
    (by decide) (by decide) "T3" "T2"
  exact h.mpr ⟨["T2"], by decide, by decide⟩

/-- One iteration of the `while queue` loop of `get_descendants`
(utils.py lines 37-44), run for at most `fuel` iterations.  The Python code
has no iteration bound; `none` models a run that is still looping after
`fuel` iterations. -/
def get_descendants_run (fuel : Nat) (dag : AList)
    (descendants queue : List String) : Option (List String) :=
  match fuel, queue with
  | _, [] => some descendants
  | 0, _ :: _ => none
  | Nat.succ f, node :: rest =>
    match lookupD dag node with
    | some children =>
        get_descendants_run f dag (descendants ++ children) (rest ++ children)
    | none => get_descendants_run f dag descendants rest

/-- `get_descendants` (utils.py lines 29-46): BFS from `term` over a
parents→children dict, collecting every visit (duplicates kept). -/
def get_descendants (fuel : Nat) (dag : AList) (term : String) :
    Option (List String) :=
  get_descendants_run fuel dag [term] [term]

theorem get_descendants_run_selfloop :
    ∀ (n : Nat) (d q : List String), q ≠ [] → (∀ x ∈ q, x = "A") →
      get_descendants_run n [("A", ["A"])] d q = none := by
  intro n
  induction n with
  | zero =>
    intro d q hq _
    cases q with
    | nil => exact absurd rfl hq
    | cons a rest => rfl
  | succ f ih =>
    intro d q hq hall
    cases q with
    | nil => exact absurd rfl hq
    | cons a rest =>
      have ha : a = "A" := hall a (by simp)
      rw [ha]
      show get_descendants_run (Nat.succ f) [("A", ["A"])] d ("A" :: rest) = none
      rw [show get_descendants_run (Nat.succ f) [("A", ["A"])] d ("A" :: rest)
            = get_descendants_run f [("A", ["A"])] (d ++ ["A"]) (rest ++ ["A"]) from rfl]
      apply ih
      · simp
      · intro x hx
        rcases List.mem_append.mp hx with h | h
        · exact hall x (List.mem_cons_of_mem _ h)
        · simpa using h

/-- C4 counterexample: on the cyclic graph `{"A": ["A"]}` the BFS of
`get_descendants` never leaves its loop — no iteration budget ever
completes it — and the source defines no `CycleDetectedError`, so the
claimed guarded termination on cyclic inputs is false. -/
theorem get_descendants_cyclic_never_terminates :
    ¬ ∃ n, (get_descendants n [("A", ["A"])] "A").isSome = true := by
  rintro ⟨n, hn⟩
  rw [get_descendants, get_descendants_run_selfloop n ["A"] ["A"]
    (by simp) (by intro x hx; simpa using hx)] at hn
  cases hn

/-- Largest length of any child list of the dict, bounding BFS branching. -/
def maxValLen (d : AList) : Nat := d.foldr (fun p m => max p.2.length m) 0

theorem length_le_maxValLen_of_mem {d : AList} {p : String × List String}
    (h : p ∈ d) : p.2.length ≤ maxValLen d := by
  induction d with
  | nil => simp at h
  | cons q d ih =>
    rw [maxValLen, List.foldr_cons]
    rcases List.mem_cons.mp h with h1 | h1
    · rw [h1]
      exact le_max_left _ _
    · exact le_trans (ih h1) (le_max_right _ _)

/-- Weight of a queue entry under a topological measure `μ`:
`(K+1) ^ (μ x + 1)` dominates the total weight of up to `K` children of
strictly smaller measure. -/
def nodeWeight (K : Nat) (μ : String → Nat) (x : String) : Nat :=
  (K + 1) ^ (μ x + 1)

/-- Total weight of the BFS queue. -/
def queuePotential (K : Nat) (μ : String → Nat) (q : List String) : Nat :=
  (q.map (nodeWeight K μ)).sum

theorem queuePotential_cons (K : Nat) (μ : String → Nat) (x : String)
    (q : List String) :
    queuePotential K μ (x :: q) = nodeWeight K μ x + queuePotential K μ q := by
  simp [queuePotential]

theorem queuePotential_append (K : Nat) (μ : String → Nat)
    (a b : List String) :
    queuePotential K μ (a ++ b) = queuePotential K μ a + queuePotential K μ b := by
  simp [queuePotential]

theorem sum_map_le (f : String → Nat) (B : Nat) :
    ∀ (l : List String), (∀ x ∈ l, f x ≤ B) → (l.map f).sum ≤ l.length * B := by
  intro l
  induction l with
  | nil => simp
  | cons a l ih =>
    intro h
    simp only [List.map_cons, List.sum_cons, List.length_cons]
    have h1 := h a (by simp)
    have h2 := ih (fun x hx => h x (List.mem_cons_of_mem _ hx))
    calc f a + (l.map f).sum ≤ B + l.length * B := by omega
      _ = (l.length + 1) * B := by ring

theorem queuePotential_lt_nodeWeight {K : Nat} {μ : String → Nat}
    {node : String} {children : List String} (hlen : children.length ≤ K)
    (hdec : ∀ c ∈ children, μ c < μ node) :
    queuePotential K μ children < nodeWeight K μ node := by
  have hterm : ∀ c ∈ children, nodeWeight K μ c ≤ (K + 1) ^ μ node := by
    intro c hc
    apply Nat.pow_le_pow_right (by omega)
    have := hdec c hc
    omega
  have hsum : queuePotential K μ children ≤ children.length * (K + 1) ^ μ node :=
    sum_map_le _ _ children hterm
  have hm : children.length * (K + 1) ^ μ node ≤ K * (K + 1) ^ μ node :=
    mul_le_mul_right' hlen _
  have hpos : 0 < (K + 1) ^ μ node := pow_pos (by omega) _
  have hK : K * (K + 1) ^ μ node < nodeWeight K μ node := by
    unfold nodeWeight
    rw [pow_succ]
    calc K * (K + 1) ^ μ node
        < (K + 1) * (K + 1) ^ μ node :=
          mul_lt_mul_of_pos_right (by omega) hpos
      _ = (K + 1) ^ μ node * (K + 1) := by ring
  omega

theorem get_descendants_run_terminates (dag : AList) (μ : String → Nat)
    (hμ : ∀ k l, lookupD dag k = some l → ∀ c ∈ l, μ c < μ k) :
    ∀ (fuel : Nat) (q d : List String),
      queuePotential (maxValLen dag) μ q ≤ fuel →
      ∃ out, get_descendants_run fuel dag d q = some out := by
  intro fuel
  induction fuel with
  | zero =>
    intro q d hq
    cases q with
    | nil => exact ⟨d, rfl⟩
    | cons node rest =>
      exfalso
      have h1 : 0 < nodeWeight (maxValLen dag) μ node := pow_pos (by omega) _
      rw [queuePotential_cons] at hq
      omega
  | succ f ih =>
    intro q d hq
    cases q with
    | nil => exact ⟨d, rfl⟩
    | cons node rest =>
      cases hl : lookupD dag node with
      | some children =>
        have harith : queuePotential (maxValLen dag) μ (rest ++ children) ≤ f := by
          have hlen : children.length ≤ maxValLen dag :=
            length_le_maxValLen_of_mem (mem_of_lookupD_eq_some hl)
          have hlt := queuePotential_lt_nodeWeight hlen (hμ node children hl)
          rw [queuePotential_append]
          rw [queuePotential_cons] at hq
          omega
        obtain ⟨out, hout⟩ := ih (rest ++ children) (d ++ children) harith
        refine ⟨out, ?_⟩
        rw [show get_descendants_run (Nat.succ f) dag d (node :: rest)
              = (match lookupD dag node with
                 | some children =>
                     get_descendants_run f dag (d ++ children) (rest ++ children)
                 | none => get_descendants_run f dag d rest) from rfl, hl]
        exact hout
      | none =>
        have harith : queuePotential (maxValLen dag) μ rest ≤ f := by
          have h1 : 0 < nodeWeight (maxValLen dag) μ node := pow_pos (by omega) _
          rw [queuePotential_cons] at hq
          omega
        obtain ⟨out, hout⟩ := ih rest d harith
        refine ⟨out, ?_⟩
        rw [show get_descendants_run (Nat.succ f) dag d (node :: rest)
              = (match lookupD dag node with
                 | some children =>
                     get_descendants_run f dag (d ++ children) (rest ++ children)
                 | none => get_descendants_run f dag d rest) from rfl, hl]
        exact hout

/-- C4 (amended): `get_descendants` contains no visit-budget guard and the
source defines no `CycleDetectedError`; instead of failing on a cycle it
simply never terminates (see the counterexample theorem).  What does hold
is plain BFS termination on acyclic inputs: whenever the dict admits a
strictly decreasing measure along its edges (equivalent to acyclicity of a
finite graph), some finite iteration budget completes the loop. -/
theorem get_descendants_terminates_on_acyclic (dag : AList) (term : String)
    (μ : String → Nat)
    (hμ : ∀ k l, lookupD dag k = some l → ∀ c ∈ l, μ c < μ k) :
    ∃ fuel out, get_descendants fuel dag term = some out := by
  refine ⟨queuePotential (maxValLen dag) μ [term], ?_⟩
  exact get_descendants_run_terminates dag μ hμ _ [term] [term] (le_refl _)

/-- Witness for C4's amended theorem on the acyclic dict `{"A": ["B"]}`. -/
theorem get_descendants_terminates_on_acyclic_witness :
    ∃ fuel out, get_descendants fuel [("A", ["B"])] "A" = some out := by
  apply get_descendants_terminates_on_acyclic [("A", ["B"])] "A"
    (fun s => if s = "A" then 1 else 0)
  intro k l hkl c hc
  by_cases hk : k = "A"
  · rw [hk] at hkl ⊢
    have hl : l = ["B"] := by
      have hAB : lookupD [("A", ["B"])] "A" = some ["B"] := rfl
      rw [hAB] at hkl
      exact (Option.some.inj hkl).symm
    rw [hl] at hc
    simp at hc
    rw [hc]
    simp
  · exfalso
    have hnone : lookupD [("A", ["B"])] k = none := by
      have hb : ("A" == k) = false := by
        simp only [beq_eq_false_iff_ne, ne_eq]
        intro he
        exact hk he.symm
      unfold lookupD
      rw [List.find?_cons, hb]
      rfl
    rw [hnone] at hkl
    cases hkl

/-- `get_descendant_genes` (utils.py lines 50-55): build the sub-dict of
`dag` whose keys occur in `descendants` — iterating over the DICT's keys in
dict order — then concatenate its value lists. -/
def get_descendant_genes (dag : AList) (descendants : List String) : List String :=
  let desc_dict := dag.filter (fun p => decide (p.1 ∈ descendants))
  let genes := desc_dict.map Prod.snd
  genes.flatten

/-- The spec's reading of `genes_of_descendants`: concatenation of the gene
lists of the descendants present as keys, in the order in which the terms
appear in the `descendants` list. -/
def get_descendant_genes_spec (dag : AList) (descendants : List String) :
    List String :=
  (descendants.filter (fun t => keyMem dag t)).flatMap
    (fun t => (lookupD dag t).getD [])

/-- C3 amended reading: concatenation follows the order of the DICT's keys,
and a matching key contributes its gene list exactly once however often the
term occurs in `descendants`. -/
def get_descendant_genes_amended (dag : AList) (descendants : List String) :
    List String :=
  ((keysOf dag).filter (fun t => decide (t ∈ descendants))).flatMap
    (fun t => (lookupD dag t).getD [])

/-- C3 counterexample: with dict order `A, B` and descendants order `B, A`
the code concatenates in dict order `["g1", "g2"]`, not in descendants
order `["g2", "g1"]` as the claim states. -/
theorem get_descendant_genes_order_counterexample :
    get_descendant_genes [("A", ["g1"]), ("B", ["g2"])] ["B", "A"] = ["g1", "g2"] ∧
    get_descendant_genes_spec [("A", ["g1"]), ("B", ["g2"])] ["B", "A"] = ["g2", "g1"] ∧
    get_descendant_genes [("A", ["g1"]), ("B", ["g2"])] ["B", "A"] ≠
      get_descendant_genes_spec [("A", ["g1"]), ("B", ["g2"])] ["B", "A"] := by
  refine ⟨by decide, by decide, by decide⟩

theorem flatMap_lookupD_cons {d : AList} {p : String × List String}
    (hout : p.1 ∉ keysOf d) :
    ∀ ts : List String, (∀ t ∈ ts, t ∈ keysOf d) →
      ts.flatMap (fun t => (lookupD (p :: d) t).getD [])
        = ts.flatMap (fun t => (lookupD d t).getD []) := by
  intro ts
  induction ts with
  | nil => intro _; rfl
  | cons t ts ih =>
    intro h
    have hne : (p.1 == t) = false := by
      simp only [beq_eq_false_iff_ne, ne_eq]
      intro he
      exact hout (he ▸ h t (by simp))
    simp only [List.flatMap_cons]
    rw [ih (fun x hx => h x (List.mem_cons_of_mem _ hx))]
    have hl : lookupD (p :: d) t = lookupD d t := by
      unfold lookupD
      rw [List.find?_cons, hne]
    rw [hl]

/-- C3 (amended): `get_descendant_genes` returns the non-deduplicated
concatenation of the gene lists of the mapping keys that occur in the
descendants list, in the order in which those keys appear in the MAPPING
(not in the descendants list), each matching key contributing once
regardless of its multiplicity among the descendants. -/
theorem get_descendant_genes_follows_dict_order :
    ∀ (dag : AList), (keysOf dag).Nodup → ∀ descendants : List String,
      get_descendant_genes dag descendants
        = get_descendant_genes_amended dag descendants := by
  intro dag
  induction dag with
  | nil => intro _ _; rfl
  | cons p d ih =>
    intro hnd descendants
    rw [keysOf, List.map_cons, List.nodup_cons] at hnd
    unfold get_descendant_genes get_descendant_genes_amended
    rw [show keysOf (p :: d) = p.1 :: keysOf d from rfl]
    simp only [List.filter_cons]
    by_cases hp : p.1 ∈ descendants
    · have hc : (decide (p.1 ∈ descendants)) = true := by simp [hp]
      simp only [hc, if_true, List.map_cons, List.flatten_cons, List.flatMap_cons]
      have hself : lookupD (p :: d) p.1 = some p.2 := by
        unfold lookupD
        rw [List.find?_cons_of_pos _ (by simp)]
        rfl
      rw [hself]
      simp only [Option.getD_some]
      congr 1
      rw [flatMap_lookupD_cons hnd.1
        ((keysOf d).filter (fun t => decide (t ∈ descendants)))
        (fun t ht => List.mem_of_mem_filter ht)]
      have hrec := ih hnd.2 descendants
      unfold get_descendant_genes get_descendant_genes_amended at hrec
      exact hrec
    · have hc : (decide (p.1 ∈ descendants)) = false := by simp [hp]
      simp only [hc, Bool.false_eq_true, if_false]
      rw [flatMap_lookupD_cons hnd.1
        ((keysOf d).filter (fun t => decide (t ∈ descendants)))
        (fun t ht => List.mem_of_mem_filter ht)]
      have hrec := ih hnd.2 descendants
      unfold get_descendant_genes get_descendant_genes_amended at hrec
      exact hrec

/-- Witness for C3's amended theorem on the counterexample input. -/
theorem get_descendant_genes_follows_dict_order_witness :
    get_descendant_genes [("A", ["g1"]), ("B", ["g2"])] ["B", "A"]
      = get_descendant_genes_amended [("A", ["g1"]), ("B", ["g2"])] ["B", "A"] :=
  get_descendant_genes_follows_dict_order [("A", ["g1"]), ("B", ["g2"])]
    (by decide) ["B", "A"]

/-- The `depth` dataframe of `create_binary_matrix`: rows (ID, depth). -/
abbrev DepthTable := List (String × Nat)

/-- `depth.loc[depth['depth'] == n, 'ID'].tolist()`. -/
def idsAtDepth (depth : DepthTable) (n : Nat) : List String :=
  (depth.filter (fun r => r.2 == n)).map Prod.fst

/-- `create_binary_matrix` (utils.py lines 67-90).  The long-format frame is
the cross product of the two ID lists; `interact` evaluates `dag[x]`, whose
KeyError on a child missing from `dag` is modelled by `none` (pandas only
evaluates it when the cross product is nonempty).  The final `pivot` is
modelled as rows labelled by the sorted distinct child IDs of the frame and
columns by the sorted distinct parent IDs, as pandas sorts the index and
columns it derives from the frame.  (pandas `pivot` additionally raises on
duplicate (index, column) pairs; duplicates cannot arise from a depth table
with distinct IDs, the situation the C2 theorem assumes.) -/
def create_binary_matrix (depth : DepthTable) (dag : AList)
    (childnum parentnum : Nat) :
    Option (List (String × List (String × Nat))) :=
  let children := idsAtDepth depth childnum
  let parents := idsAtDepth depth parentnum
  let pairs := children.flatMap (fun x => parents.map (fun y => (x, y)))
  if pairs.all (fun xy => keyMem dag xy.1) then
    let rows := ((pairs.map Prod.fst).dedup).insertionSort (fun a b => a ≤ b)
    let cols := ((pairs.map Prod.snd).dedup).insertionSort (fun a b => a ≤ b)
    some (rows.map (fun c =>
      (c, cols.map (fun p =>
        (p, if p ∈ (lookupD dag c).getD [] then 1 else 0)))))
  else none

/-- Row access of the pivoted frame by child ID. -/
def lookupRow (m : List (String × List (String × Nat))) (c : String) :
    Option (List (String × Nat)) :=
  (m.find? (fun r => r.1 == c)).map Prod.snd

/-- Entry access of the pivoted frame by (child ID, parent ID). -/
def matEntry (m : List (String × List (String × Nat))) (c p : String) :
    Option Nat :=
  match lookupRow m c with
  | some row => (row.find? (fun q => q.1 == p)).map Prod.snd
  | none => none

/-- C2 counterexample: child "c" at level 0 is not a key of the empty dag,
so `dag[x]` raises (modelled `none`) instead of producing a zero row as the
claim states. -/
theorem create_binary_matrix_keyerror_counterexample :
    create_binary_matrix [("c", 0), ("p", 1)] [] 0 1 = none := by
  decide

theorem find?_map_pair_self {β : Type} (f : String → β) :
    ∀ (rows : List String) (c : String), c ∈ rows →
      (rows.map (fun x => (x, f x))).find? (fun r => r.1 == c) = some (c, f c) := by
  intro rows
  induction rows with
  | nil => intro c hc; simp at hc
  | cons x rows ih =>
    intro c hc
    by_cases hx : x = c
    · rw [List.map_cons, List.find?_cons_of_pos _ (by simp [hx]), hx]
    · have hc' : c ∈ rows := by
        rcases List.mem_cons.mp hc with h | h
        · exact absurd h.symm hx
        · exact h
      rw [List.map_cons, List.find?_cons_of_neg _ (by simp [hx]), ih c hc']

theorem mem_crossPairs {children parents : List String} {a b : String} :
    (a, b) ∈ children.flatMap (fun x => parents.map (fun y => (x, y)))
      ↔ a ∈ children ∧ b ∈ parents := by
  simp only [List.mem_flatMap, List.mem_map]
  constructor
  · rintro ⟨x, hx, y, hy, he⟩
    have h1 : x = a := congrArg Prod.fst he
    have h2 : y = b := congrArg Prod.snd he
    exact ⟨h1 ▸ hx, h2 ▸ hy⟩
  · rintro ⟨ha, hb⟩
    exact ⟨a, ha, b, hb, rfl⟩

theorem matEntry_map (rowsL colsL : List String) (g : String → String → Nat)
    (c p : String) (hc : c ∈ rowsL) (hp : p ∈ colsL) :
    matEntry (rowsL.map (fun x => (x, colsL.map (fun y => (y, g x y))))) c p
      = some (g c p) := by
  unfold matEntry lookupRow
  rw [find?_map_pair_self (fun x => colsL.map (fun y => (y, g x y))) rowsL c hc]
  show ((colsL.map (fun y => (y, g c y))).find? (fun q => q.1 == p)).map Prod.snd
      = some (g c p)
  rw [find?_map_pair_self (fun y => g c y) colsL p hp]
  rfl

theorem mem_map_fst_crossPairs {children parents : List String}
    (hpne : parents ≠ []) (x : String) :
    x ∈ (children.flatMap (fun c => parents.map (fun y => (c, y)))).map Prod.fst
      ↔ x ∈ children := by
  simp only [List.mem_map]
  constructor
  · rintro ⟨⟨a, b⟩, hab, he⟩
    rw [← he]
    exact (mem_crossPairs.mp hab).1
  · intro hx
    obtain ⟨y, hy⟩ := List.exists_mem_of_ne_nil parents hpne
    exact ⟨(x, y), mem_crossPairs.mpr ⟨hx, hy⟩, rfl⟩

theorem mem_map_snd_crossPairs {children parents : List String}
    (hcne : children ≠ []) (y : String) :
    y ∈ (children.flatMap (fun c => parents.map (fun z => (c, z)))).map Prod.snd
      ↔ y ∈ parents := by
  simp only [List.mem_map]
  constructor
  · rintro ⟨⟨a, b⟩, hab, he⟩
    rw [← he]
    exact (mem_crossPairs.mp hab).2
  · intro hy
    obtain ⟨x, hx⟩ := List.exists_mem_of_ne_nil children hcne
    exact ⟨(x, y), mem_crossPairs.mpr ⟨hx, hy⟩, rfl⟩

/-- C2 (amended): provided every node at the child level is a key of the
dag (otherwise `dag[x]` raises a KeyError — see the counterexample), the
depth table lists distinct IDs at the two levels, and both levels are
nonempty (pandas pivot derives its index and columns from the long-format
frame, so an empty cross product yields a 0×0 frame), the mask has shape
(number of child-level nodes, number of parent-level nodes) and entry
(c, p) is 1 if `p ∈ dag[c]` and 0 otherwise. -/
theorem create_binary_matrix_shape_and_entries (depth : DepthTable)
    (dag : AList) (childnum parentnum : Nat)
    (hcn : (idsAtDepth depth childnum).Nodup)
    (hpn : (idsAtDepth depth parentnum).Nodup)
    (hcne : idsAtDepth depth childnum ≠ [])
    (hpne : idsAtDepth depth parentnum ≠ [])
    (hkeys : ∀ x ∈ idsAtDepth depth childnum, keyMem dag x = true) :
    ∃ m, create_binary_matrix depth dag childnum parentnum = some m ∧
      m.length = (idsAtDepth depth childnum).length ∧
      (∀ r ∈ m, r.2.length = (idsAtDepth depth parentnum).length) ∧
      ∀ c ∈ idsAtDepth depth childnum, ∀ p ∈ idsAtDepth depth parentnum,
        matEntry m c p
          = some (if p ∈ (lookupD dag c).getD [] then 1 else 0) := by
  have hall : ((idsAtDepth depth childnum).flatMap
      (fun x => (idsAtDepth depth parentnum).map (fun y => (x, y)))).all
      (fun xy => keyMem dag xy.1) = true := by
    rw [List.all_eq_true]
    intro xy hxy
    rcases xy with ⟨a, b⟩
    exact hkeys a (mem_crossPairs.mp hxy).1
  have hrows_perm : (((((idsAtDepth depth childnum).flatMap
        (fun x => (idsAtDepth depth parentnum).map (fun y => (x, y)))).map
          Prod.fst).dedup).insertionSort (fun a b => a ≤ b)).Perm
      (idsAtDepth depth childnum) := by
    have hnd1 : List.Nodup (((((idsAtDepth depth childnum).flatMap
          (fun x => (idsAtDepth depth parentnum).map (fun y => (x, y)))).map
            Prod.fst).dedup).insertionSort (fun a b => a ≤ b)) :=
      ((List.perm_insertionSort _ _).nodup_iff).mpr (List.nodup_dedup _)
    refine (List.perm_ext_iff_of_nodup hnd1 hcn).mpr (fun a => ?_)
    rw [List.mem_insertionSort, List.mem_dedup]
    exact mem_map_fst_crossPairs hpne a
  have hcols_perm : (((((idsAtDepth depth childnum).flatMap
        (fun x => (idsAtDepth depth parentnum).map (fun y => (x, y)))).map
          Prod.snd).dedup).insertionSort (fun a b => a ≤ b)).Perm
      (idsAtDepth depth parentnum) := by
    have hnd1 : List.Nodup (((((idsAtDepth depth childnum).flatMap
          (fun x => (idsAtDepth depth parentnum).map (fun y => (x, y)))).map
            Prod.snd).dedup).insertionSort (fun a b => a ≤ b)) :=
      ((List.perm_insertionSort _ _).nodup_iff).mpr (List.nodup_dedup _)
    refine (List.perm_ext_iff_of_nodup hnd1 hpn).mpr (fun a => ?_)
    rw [List.mem_insertionSort, List.mem_dedup]
    exact mem_map_snd_crossPairs hcne a
  have hstep : create_binary_matrix depth dag childnum parentnum
      = some ((((((idsAtDepth depth childnum).flatMap
          (fun x => (idsAtDepth depth parentnum).map (fun y => (x, y)))).map
            Prod.fst).dedup).insertionSort (fun a b => a ≤ b)).map (fun c =>
        (c, (((((idsAtDepth depth childnum).flatMap
          (fun x => (idsAtDepth depth parentnum).map (fun y => (x, y)))).map
            Prod.snd).dedup).insertionSort (fun a b => a ≤ b)).map (fun p =>
          (p, if p ∈ (lookupD dag c).getD [] then 1 else 0))))) := by
    simp only [create_binary_matrix]
    rw [if_pos hall]
  refine ⟨_, hstep, ?_, ?_, ?_⟩
  · rw [List.length_map]
    exact hrows_perm.length_eq
  · intro r hr
    rcases List.mem_map.mp hr with ⟨c, _, he⟩
    rw [← he]
    simp only [List.length_map]
    exact hcols_perm.length_eq
  · intro c hc p hp
    have hcrow : c ∈ ((((idsAtDepth depth childnum).flatMap
        (fun x => (idsAtDepth depth parentnum).map (fun y => (x, y)))).map
          Prod.fst).dedup).insertionSort (fun a b => a ≤ b) :=
      hrows_perm.mem_iff.mpr hc
    have hpcol : p ∈ ((((idsAtDepth depth childnum).flatMap
        (fun x => (idsAtDepth depth parentnum).map (fun y => (x, y)))).map
          Prod.snd).dedup).insertionSort (fun a b => a ≤ b) :=
      hcols_perm.mem_iff.mpr hp
    exact matEntry_map _ _ _ c p hcrow hpcol

/-- Witness for C2's amended theorem on the spec's worked example levels. -/
theorem create_binary_matrix_shape_and_entries_witness :
    ∃ m, create_binary_matrix [("T2", 1), ("T1", 0)]
        [("T2", ["T1"]), ("T1", [])] 1 0 = some m ∧
      m.length = 1 ∧ (∀ r ∈ m, r.2.length = 1) ∧
      ∀ c ∈ ["T2"], ∀ p ∈ ["T1"],
        matEntry m c p
          = some (if p ∈ (lookupD [("T2", ["T1"]), ("T1", [])] c).getD []
              then 1 else 0) := by
  have h := create_binary_matrix_shape_and_entries [("T2", 1), ("T1", 0)]
    [("T2", ["T1"]), ("T1", [])] 1 0 (by decide) (by decide) (by decide)
    (by decide) (by decide)
  rcases h with ⟨m, h1, h2, h3, h4⟩
  rw [show idsAtDepth [("T2", 1), ("T1", 0)] 1 = ["T2"] from rfl] at h2
  rw [show idsAtDepth [("T2", 1), ("T1", 0)] 0 = ["T1"] from rfl] at h3
  refine ⟨m, h1, by simpa using h2, ?_, ?_⟩
  · intro r hr
    simpa using h3 r hr
  · intro c hc p hp
    refine h4 c ?_ p ?_
    · rw [show idsAtDepth [("T2", 1), ("T1", 0)] 1 = ["T2"] from rfl]
      exact hc
    · rw [show idsAtDepth [("T2", 1), ("T1", 0)] 0 = ["T1"] from rfl]
      exact hp

/-- `find_all_paths` (utils.py lines 233-245).  `fuel` bounds the recursion
depth (the Python recursion is unbounded; `none` models a run that would
recurse deeper than `fuel`).  `path` is the accumulator parameter whose
Python default is `[]`; the loop over `graph[start]` appends the recursive
results in list order. -/
def find_all_paths : Nat → AList → String → String → List String →
    Option (List (List String))
  | 0, _, _, _, _ => none
  | Nat.succ fuel, graph, start, endv, path =>
    if start = endv then some [path ++ [start]]
    else
      match lookupD graph start with
      | none => some []
      | some nbrs =>
        nbrs.foldr (fun node acc =>
          match acc with
          | none => none
          | some rest =>
            if node ∈ path ++ [start] then some rest
            else
              match find_all_paths fuel graph node endv (path ++ [start]) with
              | none => none
              | some ps => some (ps ++ rest)) (some [])

/-- Adjacency as the code consults it: `y ∈ graph[x]`. -/
def adj (graph : AList) (x y : String) : Prop :=
  y ∈ (lookupD graph x).getD []

/-- `r` is a directed path from `a` to `b` following `graph`'s edges,
listing the nodes from `a` to `b` inclusive. -/
def isPathFrom (graph : AList) : List String → String → String → Prop
  | [], _, _ => False
  | [x], a, b => x = a ∧ x = b
  | x :: y :: rest, a, b => x = a ∧ adj graph x y ∧ isPathFrom graph (y :: rest) y b

/-- A simple directed path: a path with no repeated node. -/
def isSimplePath (graph : AList) (r : List String) (a b : String) : Prop :=
  isPathFrom graph r a b ∧ r.Nodup

theorem last_mem_of_isPathFrom {graph : AList} :
    ∀ {r : List String} {a b : String}, isPathFrom graph r a b → b ∈ r := by
  intro r
  induction r with
  | nil => intro a b h; cases h
  | cons x rest ih =>
    intro a b h
    cases rest with
    | nil =>
      rcases h with ⟨_, hxb⟩
      simp [hxb]
    | cons y rest' =>
      rcases h with ⟨_, _, htail⟩
      exact List.mem_cons_of_mem _ (ih htail)

theorem isPathFrom_self_unique {graph : AList} :
    ∀ {r : List String} {a : String},
      isPathFrom graph r a a → r.Nodup → r = [a] := by
  intro r
  cases r with
  | nil => intro a h _; cases h
  | cons x rest =>
    intro a h hnd
    cases rest with
    | nil =>
      rcases h with ⟨hxa, _⟩
      rw [hxa]
    | cons y rest' =>
      rcases h with ⟨hxa, _, htail⟩
      exfalso
      have hmem : a ∈ y :: rest' := last_mem_of_isPathFrom htail
      rw [List.nodup_cons] at hnd
      exact hnd.1 (hxa ▸ hmem)

theorem find_all_paths_succ_eq (fuel : Nat) (graph : AList)
    (start endv : String) (path : List String) :
    find_all_paths (Nat.succ fuel) graph start endv path
      = if start = endv then some [path ++ [start]]
        else
          match lookupD graph start with
          | none => some []
          | some nbrs =>
            nbrs.foldr (fun node acc =>
              match acc with
              | none => none
              | some rest =>
                if node ∈ path ++ [start] then some rest
                else
                  match find_all_paths fuel graph node endv (path ++ [start]) with
                  | none => none
                  | some ps => some (ps ++ rest)) (some []) := rfl

theorem find_all_paths_fold_spec (fuel : Nat) (graph : AList) (endv : String)
    (cur : List String) :
    ∀ (nbrs : List String) (out : List (List String)),
      nbrs.foldr (fun node acc =>
        match acc with
        | none => none
        | some rest =>
          if node ∈ cur then some rest
          else
            match find_all_paths fuel graph node endv cur with
            | none => none
            | some ps => some (ps ++ rest)) (some []) = some out →
      (∀ node ∈ nbrs, node ∉ cur →
        ∃ ps, find_all_paths fuel graph node endv cur = some ps) ∧
      (∀ q, q ∈ out ↔ ∃ node ∈ nbrs, node ∉ cur ∧
        ∃ ps, find_all_paths fuel graph node endv cur = some ps ∧ q ∈ ps) := by
  intro nbrs
  induction nbrs with
  | nil =>
    intro out h
    have hout : ([] : List (List String)) = out := Option.some.inj h
    constructor
    · intro node hn
      simp at hn
    · intro q
      rw [← hout]
      simp
  | cons node ns ih =>
    intro out h
    rw [List.foldr_cons] at h
    cases hacc : ns.foldr (fun node acc =>
        match acc with
        | none => none
        | some rest =>
          if node ∈ cur then some rest
          else
            match find_all_paths fuel graph node endv cur with
            | none => none
            | some ps => some (ps ++ rest)) (some []) with
    | none =>
      rw [hacc] at h
      exact Option.noConfusion h
    | some rest =>
      rw [hacc] at h
      have h' : (if node ∈ cur then some rest
          else
            match find_all_paths fuel graph node endv cur with
            | none => none
            | some ps => some (ps ++ rest)) = some out := h
      obtain ⟨hall, hiff⟩ := ih rest hacc
      by_cases hnc : node ∈ cur
      · rw [if_pos hnc] at h'
        have hout : rest = out := Option.some.inj h'
        constructor
        · intro n hn hn2
          rcases List.mem_cons.mp hn with he | hn'
          · exact absurd (he ▸ hnc) hn2
          · exact hall n hn' hn2
        · intro q
          rw [← hout, hiff q]
          constructor
          · rintro ⟨n, hn, hx⟩
            exact ⟨n, List.mem_cons_of_mem _ hn, hx⟩
          · rintro ⟨n, hn, hn2, hx⟩
            rcases List.mem_cons.mp hn with he | hn'
            · exact absurd (he ▸ hnc) hn2
            · exact ⟨n, hn', hn2, hx⟩
      · rw [if_neg hnc] at h'
        cases hrec : find_all_paths fuel graph node endv cur with
        | none =>
          rw [hrec] at h'
          exact Option.noConfusion h'
        | some ps =>
          rw [hrec] at h'
          have hout : ps ++ rest = out := Option.some.inj h'
          constructor
          · intro n hn hn2
            rcases List.mem_cons.mp hn with he | hn'
            · exact ⟨ps, he ▸ hrec⟩
            · exact hall n hn' hn2
          · intro q
            rw [← hout]
            constructor
            · intro hq
              rcases List.mem_append.mp hq with hq | hq
              · exact ⟨node, by simp, hnc, ps, hrec, hq⟩
              · rcases (hiff q).mp hq with ⟨n, hn, hn2, ps', hps', hq'⟩
                exact ⟨n, List.mem_cons_of_mem _ hn, hn2, ps', hps', hq'⟩
            · rintro ⟨n, hn, hn2, ps', hps', hq'⟩
              rcases List.mem_cons.mp hn with he | hn'
              · apply List.mem_append.mpr
                left
                rw [he] at hps'
                rw [hrec] at hps'
                exact (Option.some.inj hps').symm ▸ hq'
              · exact List.mem_append.mpr
                  (Or.inr ((hiff q).mpr ⟨n, hn', hn2, ps', hps', hq'⟩))

theorem find_all_paths_characterization :
    ∀ (fuel : Nat) (graph : AList) (start endv : String) (path : List String)
      (out : List (List String)),
      start ∉ path →
      find_all_paths fuel graph start endv path = some out →
      ∀ q, q ∈ out ↔ ∃ r, q = path ++ r ∧ isSimplePath graph r start endv ∧
        ∀ x ∈ r, x ∉ path := by
  intro fuel
  induction fuel with
  | zero =>
    intro graph start endv path out hs h
    exact Option.noConfusion h
  | succ fuel ih =>
    intro graph start endv path out hs h q
    rw [find_all_paths_succ_eq] at h
    by_cases he : start = endv
    · rw [if_pos he] at h
      have hout : [path ++ [start]] = out := Option.some.inj h
      rw [← hout]
      constructor
      · intro hq
        simp only [List.mem_singleton] at hq
        refine ⟨[start], by rw [hq], ⟨⟨rfl, he⟩, by simp⟩, ?_⟩
        intro x hx
        simp only [List.mem_singleton] at hx
        rw [hx]
        exact hs
      · rintro ⟨r, hq, ⟨hp, hnd⟩, _⟩
        rw [← he] at hp
        have hr : r = [start] := isPathFrom_self_unique hp hnd
        rw [hq, hr]
        simp
    · rw [if_neg he] at h
      cases hl : lookupD graph start with
      | none =>
        have h' : some ([] : List (List String)) = some out := by
          rw [hl] at h
          exact h
        rw [← Option.some.inj h']
        simp only [List.not_mem_nil, false_iff]
        rintro ⟨r, hq, ⟨hp, hnd⟩, havoid⟩
        cases r with
        | nil => exact hp
        | cons x rest =>
          cases rest with
          | nil =>
            rcases hp with ⟨h1, h2⟩
            exact he (h1 ▸ h2)
          | cons y rest' =>
            rcases hp with ⟨h1, hadj, _⟩
            unfold adj at hadj
            rw [h1, hl] at hadj
            simp at hadj
      | some nbrs =>
        have h' : (nbrs.foldr (fun node acc =>
            match acc with
            | none => none
            | some rest =>
              if node ∈ path ++ [start] then some rest
              else
                match find_all_paths fuel graph node endv (path ++ [start]) with
                | none => none
                | some ps => some (ps ++ rest)) (some [])) = some out := by
          rw [hl] at h
          exact h
        obtain ⟨hall, hiff⟩ :=
          find_all_paths_fold_spec fuel graph endv (path ++ [start]) nbrs out h'
        rw [hiff q]
        constructor
        · rintro ⟨node, hn, hnc, ps, hps, hq⟩
          rcases (ih graph node endv (path ++ [start]) ps hnc hps q).mp hq
            with ⟨r', hq', ⟨hp', hnd'⟩, havoid'⟩
          cases r' with
          | nil => cases hp'
          | cons z rest' =>
            have hz : z = node := by
              cases rest' with
              | nil => exact hp'.1
              | cons w rest'' => exact hp'.1
            refine ⟨start :: z :: rest', ?_, ⟨⟨rfl, ?_, ?_⟩, ?_⟩, ?_⟩
            · rw [hq']
              simp
            · unfold adj
              rw [hl]
              simpa using hz ▸ hn
            · have hp'' : isPathFrom graph (z :: rest') z endv := by
                cases rest' with
                | nil => exact ⟨rfl, hp'.2⟩
                | cons w rest'' => exact ⟨rfl, hp'.2.1, hp'.2.2⟩
              exact hp''
            · rw [List.nodup_cons]
              refine ⟨?_, hnd'⟩
              intro hsr
              exact (havoid' start hsr) (by simp)
            · intro x hx
              rcases List.mem_cons.mp hx with he' | hx'
              · rw [he']
                exact hs
              · intro hxp
                exact (havoid' x hx') (List.mem_append.mpr (Or.inl hxp))
        · rintro ⟨r, hq, ⟨hp, hnd⟩, havoid⟩
          cases r with
          | nil => cases hp
          | cons x rest =>
            cases rest with
            | nil =>
              rcases hp with ⟨h1, h2⟩
              exact absurd (h1 ▸ h2) he
            | cons y rest' =>
              rcases hp with ⟨h1, hadj, htail⟩
              have hyn : y ∈ nbrs := by
                unfold adj at hadj
                rw [h1, hl] at hadj
                simpa using hadj
              rw [List.nodup_cons] at hnd
              have hync : y ∉ path ++ [start] := by
                intro hmem
                rcases List.mem_append.mp hmem with hmp | hms
                · exact (havoid y (by simp)) hmp
                · simp only [List.mem_singleton] at hms
                  apply hnd.1
                  rw [h1, ← hms]
                  simp
              obtain ⟨ps, hps⟩ := hall y hyn hync
              refine ⟨y, hyn, hync, ps, hps, ?_⟩
              refine (ih graph y endv (path ++ [start]) ps hync hps q).mpr
                ⟨y :: rest', ?_, ⟨htail, hnd.2⟩, ?_⟩
              · rw [hq, h1]
                simp
              · intro z hz hmem
                rcases List.mem_append.mp hmem with hmp | hms
                · exact (havoid z (List.mem_cons_of_mem _ hz)) hmp
                · simp only [List.mem_singleton] at hms
                  apply hnd.1
                  rw [h1, ← hms]
                  exact hz

/-- C8: whenever `find_all_paths` completes within its recursion budget,
its result is exactly the set of simple directed paths from `start` to
`endv` (each a node sequence from `start` to `endv` inclusive, following
the graph's edges, with no repeated node); in particular for
`start = endv` it returns exactly `[[start]]`, and when `start` has no
outgoing edges and differs from `endv` it returns no paths. -/
theorem find_all_paths_spec (fuel : Nat) (graph : AList) (start endv : String)
    (out : List (List String))
    (h : find_all_paths fuel graph start endv [] = some out) :
    (∀ q, q ∈ out ↔ isSimplePath graph q start endv) ∧
    (start = endv → out = [[start]]) ∧
    (lookupD graph start = none → start ≠ endv → out = []) := by
  refine ⟨?_, ?_, ?_⟩
  · intro q
    rw [find_all_paths_characterization fuel graph start endv [] out
      (by simp) h q]
    constructor
    · rintro ⟨r, hq, hsp, _⟩
      rw [hq]
      simpa using hsp
    · intro hsp
      exact ⟨q, by simp, hsp, by simp⟩
  · intro he
    cases fuel with
    | zero => exact Option.noConfusion h
    | succ f =>
      rw [find_all_paths_succ_eq, if_pos he] at h
      rw [← Option.some.inj h]
      simp
  · intro hl hne
    cases fuel with
    | zero => exact Option.noConfusion h
    | succ f =>
      rw [find_all_paths_succ_eq, if_neg hne, hl] at h
      exact (Option.some.inj h).symm

/-- Witness for C8 on the one-edge graph, fuel 2. -/
theorem find_all_paths_spec_witness :
    ["A", "B"] ∈ [["A", "B"]]
      ↔ isSimplePath [("A", ["B"])] ["A", "B"] "A" "B" :=
  (find_all_paths_spec 2 [("A", ["B"])] "A" "B" [["A", "B"]] (by decide)).1
    ["A", "B"]

theorem lookupD_setKey_ne {d : AList} {k k' : String} (h : k' ≠ k)
    (v : List String) : lookupD (setKey d k v) k' = lookupD d k' := by
  induction d with
  | nil => rfl
  | cons p d ih =>
    unfold setKey at ih ⊢
    rw [List.map_cons]
    by_cases hpk : p.1 = k
    · rw [if_pos hpk]
      unfold lookupD
      rw [List.find?_cons, List.find?_cons]
      have h1 : (((k, v) : String × List String).1 == k') = false := by
        simp only [beq_eq_false_iff_ne, ne_eq]
        intro he
        exact h he.symm
      have h2 : (p.1 == k') = false := by
        simp only [beq_eq_false_iff_ne, ne_eq]
        intro he
        exact h (by rw [← he, hpk])
      rw [h1, h2]
      exact ih
    · rw [if_neg hpk]
      unfold lookupD
      rw [List.find?_cons, List.find?_cons]
      cases hc : (p.1 == k') with
      | true => rfl
      | false => exact ih

theorem lookupD_setKey_self {d : AList} {k : String}
    (h : keyMem d k = true) (v : List String) :
    lookupD (setKey d k v) k = some v := by
  induction d with
  | nil => simp [keyMem] at h
  | cons p d ih =>
    unfold setKey at ih ⊢
    rw [List.map_cons]
    by_cases hpk : p.1 = k
    · rw [if_pos hpk]
      unfold lookupD
      rw [List.find?_cons_of_pos _ (by simp)]
      rfl
    · rw [if_neg hpk]
      unfold lookupD
      rw [List.find?_cons_of_neg _ (by simp [hpk])]
      apply ih
      unfold keyMem at h ⊢
      rw [List.any_cons] at h
      simpa [hpk] using h

theorem lookupD_append_single_ne {d : AList} {k p : String}
    (h : k ≠ p) (v : List String) :
    lookupD (d ++ [(p, v)]) k = lookupD d k := by
  unfold lookupD
  rw [List.find?_append]
  cases hf : d.find? (fun q => q.1 == k) with
  | some a => rfl
  | none =>
    simp only [Option.none_or]
    rw [List.find?_cons_of_neg _ (by simp; exact fun he => h he.symm)]
    rfl

theorem keyMem_append_single_self (d : AList) (p : String) (v : List String) :
    keyMem (d ++ [(p, v)]) p = true := by
  unfold keyMem
  rw [List.any_append]
  simp

theorem lookupD_delKey_ne {d : AList} {k k' : String} (h : k' ≠ k) :
    lookupD (delKey d k) k' = lookupD d k' := by
  induction d with
  | nil => rfl
  | cons p d ih =>
    unfold delKey at ih ⊢
    by_cases hpk : (p.1 == k) = true
    · have hdel : List.eraseP (fun q => q.1 == k) (p :: d) = d := by
        show (bif (p.1 == k) then d else p :: List.eraseP (fun q => q.1 == k) d) = d
        rw [hpk]
        rfl
      rw [hdel]
      unfold lookupD
      rw [List.find?_cons_of_neg _ ?_]
      intro hc
      have h1 : p.1 = k := by simpa using hpk
      have h2 : p.1 = k' := by simpa using hc
      exact h (h2 ▸ h1)
    · have hb : (p.1 == k) = false := by simpa using hpk
      have hdel : List.eraseP (fun q => q.1 == k) (p :: d)
          = p :: List.eraseP (fun q => q.1 == k) d := by
        show (bif (p.1 == k) then d else p :: List.eraseP (fun q => q.1 == k) d) = _
        rw [hb]
        rfl
      rw [hdel]
      unfold lookupD
      rw [List.find?_cons, List.find?_cons]
      cases hc : (p.1 == k') with
      | true => rfl
      | false => exact ih

theorem keyMem_delKey_self {d : AList} (hnd : (keysOf d).Nodup) (k : String) :
    keyMem (delKey d k) k = false := by
  induction d with
  | nil => rfl
  | cons p d ih =>
    rw [keysOf, List.map_cons, List.nodup_cons] at hnd
    unfold delKey at ih ⊢
    by_cases hpk : (p.1 == k) = true
    · have hdel : List.eraseP (fun q => q.1 == k) (p :: d) = d := by
        show (bif (p.1 == k) then d else p :: List.eraseP (fun q => q.1 == k) d) = d
        rw [hpk]
        rfl
      rw [hdel]
      have h1 : p.1 = k := by simpa using hpk
      have hnot : ¬ (keyMem d k = true) := fun hm =>
        hnd.1 (h1 ▸ (keyMem_iff_mem_keysOf d k).mp hm)
      cases hb : keyMem d k with
      | true => exact absurd hb hnot
      | false => rfl
    · have hb : (p.1 == k) = false := by simpa using hpk
      have hdel : List.eraseP (fun q => q.1 == k) (p :: d)
          = p :: List.eraseP (fun q => q.1 == k) d := by
        show (bif (p.1 == k) then d else p :: List.eraseP (fun q => q.1 == k) d) = _
        rw [hb]
        rfl
      rw [hdel]
      unfold keyMem
      rw [List.any_cons]
      have := ih hnd.2
      unfold keyMem at this
      simp [hpk, this]

/-- Body of the `for p in parents` loop of `trim_term_bottom` (utils.py
lines 125-131) for one parent `p`.  State is (term_dict_rev,
gene_dict_rev); `none` models the exceptions the code raises:
`term_dict_rev[p]` KeyError, `list.remove` ValueError when `term` is not a
child of `p`, `gene_dict_rev[term]` KeyError.  `list(set(..))` has
unspecified CPython order; it is modelled keeping first occurrences
(membership-faithful). -/
def trim_parent_step (term p : String) (st : AList × AList) :
    Option (AList × AList) :=
  match lookupD st.1 p with
  | none => none
  | some l =>
    if term ∈ l then
      let tdr := setKey st.1 p (l.erase term)
      let gdr := if keyMem st.2 p then st.2 else st.2 ++ [(p, [])]
      match lookupD gdr term with
      | none => none
      | some tg =>
        let cur := (lookupD gdr p).getD []
        some (tdr, setKey gdr p ((cur ++ tg).dedup))
    else none

/-- `trim_term_bottom` (utils.py lines 103-137): look the term's parents up
in the immutable forward dict (empty when absent), run the per-parent loop,
then delete the term's own entries (`del gene_dict_rev[term]` raises when
the term has no gene entry; `term_dict_rev` is only deleted if present). -/
def trim_term_bottom (term : String) (term_term_dict : AList)
    (st : AList × AList) : Option (AList × AList) :=
  let parents := (lookupD term_term_dict term).getD []
  match parents.foldlM (fun s p => trim_parent_step term p s) st with
  | none => none
  | some st' =>
    if keyMem st'.2 term then
      some (delKey st'.1 term, delKey st'.2 term)
    else none

/-- `trim_DAG_bottom` (utils.py lines 142-175): split the DAG into term and
gene slices, reverse both, fold the per-term trim over the removal list,
reverse back and merge (`dict.update`). -/
def trim_DAG_bottom (DAG : AList) (all_terms : List String)
    (trim_terms : List String) : Option AList :=
  let term_term_dict := DAG.filter (fun p => decide (p.1 ∈ all_terms))
  let term_gene_dict := DAG.filter (fun p => decide (p.1 ∉ all_terms))
  let term_dict_rev := reverse_graph term_term_dict
  let gene_dict_rev := reverse_graph term_gene_dict
  match trim_terms.foldlM (fun st t => trim_term_bottom t term_term_dict st)
      (term_dict_rev, gene_dict_rev) with
  | none => none
  | some st => some (dictUpdate (reverse_graph st.1) (reverse_graph st.2))

/-- `trim_term_top` (utils.py lines 182-188): unconditionally delete the
term's key from both reversed dicts when present. -/
def trim_term_top (term : String) (st : AList × AList) : AList × AList :=
  (delKey st.1 term, delKey st.2 term)

/-- `trim_DAG_top` (utils.py lines 193-226): same split/reverse/apply/
reverse-back/merge skeleton as the bottom variant with the unconditional
delete step. -/
def trim_DAG_top (DAG : AList) (all_terms : List String)
    (trim_terms : List String) : AList :=
  let term_term_dict := DAG.filter (fun p => decide (p.1 ∈ all_terms))
  let term_gene_dict := DAG.filter (fun p => decide (p.1 ∉ all_terms))
  let st := trim_terms.foldl (fun st t => trim_term_top t st)
    (reverse_graph term_term_dict, reverse_graph term_gene_dict)
  dictUpdate (reverse_graph st.1) (reverse_graph st.2)

example : trim_DAG_bottom
    [("gene1", ["T3"]), ("gene2", ["T3"]), ("T3", ["T2"]), ("T2", ["T1"]),
      ("T1", [])] ["T1", "T2", "T3"] ["T3"]
    = some [("T2", ["T1"]), ("gene1", ["T2"]), ("gene2", ["T2"])] := by
  decide

example : trim_DAG_top
    [("gene1", ["T3"]), ("gene2", ["T3"]), ("T3", ["T2"]), ("T2", ["T1"]),
      ("T1", [])] ["T1", "T2", "T3"] ["T1"]
    = [("T3", ["T2"]), ("gene1", ["T3"]), ("gene2", ["T3"])] := by
  decide

theorem trim_parent_step_eq {term p : String} {st st2 : AList × AList}
    (h : trim_parent_step term p st = some st2) :
    ∃ l tg, lookupD st.1 p = some l ∧ term ∈ l ∧
      lookupD (if keyMem st.2 p then st.2 else st.2 ++ [(p, [])]) term
        = some tg ∧
      st2 = (setKey st.1 p (l.erase term),
        setKey (if keyMem st.2 p then st.2 else st.2 ++ [(p, [])]) p
          (((lookupD (if keyMem st.2 p then st.2 else st.2 ++ [(p, [])])
              p).getD [] ++ tg).dedup)) := by
  simp only [trim_parent_step] at h
  cases hl : lookupD st.1 p with
  | none => rw [hl] at h; exact Option.noConfusion h
  | some l =>
    rw [hl] at h
    have h2 : (if term ∈ l then
        (match lookupD (if keyMem st.2 p then st.2 else st.2 ++ [(p, [])])
            term with
         | none => none
         | some tg =>
           some (setKey st.1 p (l.erase term),
             setKey (if keyMem st.2 p then st.2 else st.2 ++ [(p, [])]) p
               (((lookupD (if keyMem st.2 p then st.2
                   else st.2 ++ [(p, [])]) p).getD [] ++ tg).dedup)))
        else none) = some st2 := h
    by_cases hterm : term ∈ l
    · rw [if_pos hterm] at h2
      cases hg : lookupD (if keyMem st.2 p then st.2 else st.2 ++ [(p, [])])
          term with
      | none => rw [hg] at h2; exact Option.noConfusion h2
      | some tg =>
        rw [hg] at h2
        exact ⟨l, tg, rfl, hterm, rfl, (Option.some.inj h2).symm⟩
    · rw [if_neg hterm] at h2
      exact Option.noConfusion h2

theorem trim_parent_step_term_entry {term p : String} {st st2 : AList × AList}
    (hne : p ≠ term) (h : trim_parent_step term p st = some st2) :
    lookupD st2.2 term = lookupD st.2 term := by
  rcases trim_parent_step_eq h with ⟨l, tg, _, _, _, hst2⟩
  rw [hst2]
  show lookupD (setKey _ p _) term = _
  rw [lookupD_setKey_ne (fun he => hne he.symm)]
  by_cases hk : keyMem st.2 p = true
  · rw [if_pos hk]
  · rw [if_neg hk]
    exact lookupD_append_single_ne (fun he => hne he.symm) []

theorem trim_parent_step_mono {term p : String} {st st2 : AList × AList}
    (h : trim_parent_step term p st = some st2) :
    ∀ q g, g ∈ (lookupD st.2 q).getD [] → g ∈ (lookupD st2.2 q).getD [] := by
  intro q g hg
  rcases trim_parent_step_eq h with ⟨l, tg, _, _, htg, hst2⟩
  rw [hst2]
  by_cases hq : q = p
  · rw [hq] at hg ⊢
    by_cases hk : keyMem st.2 p = true
    · rw [if_pos hk] at htg ⊢
      show g ∈ (lookupD (setKey st.2 p _) p).getD []
      rw [lookupD_setKey_self hk]
      simp only [Option.getD_some, List.mem_dedup]
      exact List.mem_append.mpr (Or.inl hg)
    · exfalso
      have : lookupD st.2 p = none :=
        (lookupD_eq_none_iff _ _).mpr (by cases hb : keyMem st.2 p with
          | true => exact absurd hb hk
          | false => rfl)
      rw [this] at hg
      simp at hg
  · show g ∈ (lookupD (setKey _ p _) q).getD []
    rw [lookupD_setKey_ne hq]
    by_cases hk : keyMem st.2 p = true
    · rw [if_pos hk]
      exact hg
    · rw [if_neg hk, lookupD_append_single_ne hq]
      exact hg

theorem trim_parent_step_gains {term p : String} {st st2 : AList × AList}
    (hne : p ≠ term) (h : trim_parent_step term p st = some st2) :
    ∀ g ∈ (lookupD st.2 term).getD [], g ∈ (lookupD st2.2 p).getD [] := by
  intro g hg
  rcases trim_parent_step_eq h with ⟨l, tg, _, _, htg, hst2⟩
  have hkey : keyMem (if keyMem st.2 p then st.2 else st.2 ++ [(p, [])]) p
      = true := by
    by_cases hk : keyMem st.2 p = true
    · rw [if_pos hk]; exact hk
    · rw [if_neg hk]; exact keyMem_append_single_self st.2 p []
  have htg' : (lookupD st.2 term).getD [] = tg := by
    by_cases hk : keyMem st.2 p = true
    · rw [if_pos hk] at htg
      rw [htg]
      rfl
    · rw [if_neg hk, lookupD_append_single_ne (fun he => hne he.symm) []] at htg
      rw [htg]
      rfl
  rw [hst2]
  show g ∈ (lookupD (setKey _ p _) p).getD []
  rw [lookupD_setKey_self hkey]
  simp only [Option.getD_some, List.mem_dedup]
  exact List.mem_append.mpr (Or.inr (htg' ▸ hg))

theorem foldlM_trim_parent (term : String) :
    ∀ (ps : List String) (st st' : AList × AList),
      term ∉ ps →
      ps.foldlM (fun s p => trim_parent_step term p s) st = some st' →
      (lookupD st'.2 term = lookupD st.2 term) ∧
      (∀ q g, g ∈ (lookupD st.2 q).getD [] → g ∈ (lookupD st'.2 q).getD []) ∧
      (∀ p ∈ ps, ∀ g ∈ (lookupD st.2 term).getD [],
        g ∈ (lookupD st'.2 p).getD []) := by
  intro ps
  induction ps with
  | nil =>
    intro st st' _ h
    have : st = st' := Option.some.inj h
    rw [← this]
    exact ⟨rfl, fun q g hg => hg, fun p hp => absurd hp (by simp)⟩
  | cons p ps ih =>
    intro st st' hterm h
    rw [List.foldlM_cons] at h
    cases hstep : trim_parent_step term p st with
    | none =>
      rw [hstep] at h
      exact Option.noConfusion h
    | some st1 =>
      rw [hstep] at h
      have hne : p ≠ term := fun he => hterm (by rw [← he]; simp)
      have hterm' : term ∉ ps := fun hm => hterm (List.mem_cons_of_mem _ hm)
      obtain ⟨ih1, ih2, ih3⟩ := ih st1 st' hterm' h
      have hstable := trim_parent_step_term_entry hne hstep
      refine ⟨by rw [ih1, hstable], ?_, ?_⟩
      · intro q g hg
        exact ih2 q g (trim_parent_step_mono hstep q g hg)
      · intro p' hp' g hg
        rcases List.mem_cons.mp hp' with he | hp''
        · rw [he]
          exact ih2 p g (trim_parent_step_gains hne hstep g hg)
        · exact ih3 p' hp'' g (by rw [hstable]; exact hg)

theorem trim_term_bottom_eq {term : String} {ttd : AList}
    {st st2 : AList × AList} (h : trim_term_bottom term ttd st = some st2) :
    ∃ st', ((lookupD ttd term).getD []).foldlM
        (fun s p => trim_parent_step term p s) st = some st' ∧
      keyMem st'.2 term = true ∧
      st2 = (delKey st'.1 term, delKey st'.2 term) := by
  simp only [trim_term_bottom] at h
  cases hf : ((lookupD ttd term).getD []).foldlM
      (fun s p => trim_parent_step term p s) st with
  | none => rw [hf] at h; exact Option.noConfusion h
  | some st' =>
    rw [hf] at h
    have h2 : (if keyMem st'.2 term then
        some (delKey st'.1 term, delKey st'.2 term) else none) = some st2 := h
    by_cases hk : keyMem st'.2 term = true
    · rw [if_pos hk] at h2
      exact ⟨st', rfl, hk, (Option.some.inj h2).symm⟩
    · rw [if_neg hk] at h2
      exact Option.noConfusion h2

/-- C6: when `trim_term_bottom` removes a term that has at least one parent
in the term-to-parents mapping (and, per the DAG's acyclicity, is not its
own parent), every gene in the trimmed term's gene set before the call is
afterwards in the (deduplicated) gene set of every former parent — which
subsumes the claim's "at least one former parent". -/
theorem trim_term_bottom_gene_propagation (term : String) (ttd : AList)
    (tdr gdr tdr' gdr' : AList)
    (h : trim_term_bottom term ttd (tdr, gdr) = some (tdr', gdr'))
    (hne : (lookupD ttd term).getD [] ≠ [])
    (hself : term ∉ (lookupD ttd term).getD []) :
    ∀ p ∈ (lookupD ttd term).getD [], ∀ g ∈ (lookupD gdr term).getD [],
      g ∈ (lookupD gdr' p).getD [] := by
  intro p hp g hg
  rcases trim_term_bottom_eq h with ⟨st', hf, hk, hst2⟩
  obtain ⟨h1, h2, h3⟩ := foldlM_trim_parent term _ (tdr, gdr) st' hself hf
  have hgm : g ∈ (lookupD st'.2 p).getD [] := h3 p hp g hg
  have hpt : p ≠ term := fun he => hself (he ▸ hp)
  have hsnd : gdr' = delKey st'.2 term := congrArg Prod.snd hst2
  rw [hsnd, lookupD_delKey_ne hpt]
  exact hgm

/-- Witness for C6 at the spec's worked example (trimming T3). -/
theorem trim_term_bottom_gene_propagation_witness :
    "gene1" ∈ (lookupD [("T2", ["gene1", "gene2"])] "T2").getD [] :=
  trim_term_bottom_gene_propagation "T3"
    [("T3", ["T2"]), ("T2", ["T1"]), ("T1", [])]
    [("T2", ["T3"]), ("T1", ["T2"])] [("T3", ["gene1", "gene2"])]
    [("T2", []), ("T1", ["T2"])] [("T2", ["gene1", "gene2"])]
    (by decide) (by decide) (by decide) "T2" (by decide) "gene1" (by decide)

/-- C7: bottom-trimming a term with no parents deletes the term's own gene
entry and changes nothing else: the resulting dicts are exactly the inputs
with the term's bindings removed, so its genes are propagated nowhere.
(The code first requires the term to have a gene entry: `del
gene_dict_rev[term]` raises KeyError otherwise.) -/
theorem trim_term_bottom_root (term : String) (ttd : AList)
    (tdr gdr : AList)
    (hpar : (lookupD ttd term).getD [] = [])
    (hkey : keyMem gdr term = true) :
    trim_term_bottom term ttd (tdr, gdr)
      = some (delKey tdr term, delKey gdr term) := by
  simp only [trim_term_bottom, hpar, List.foldlM_nil]
  simp only [pure, hkey, if_true]

/-- Witness for C7: trimming the root T1 of the worked example. -/
theorem trim_term_bottom_root_witness :
    trim_term_bottom "T1" [("T3", ["T2"]), ("T2", ["T1"]), ("T1", [])]
        ([("T2", ["T3"]), ("T1", ["T2"])], [("T1", ["g"])])
      = some (delKey [("T2", ["T3"]), ("T1", ["T2"])] "T1",
          delKey [("T1", ["g"])] "T1") :=
  trim_term_bottom_root "T1" [("T3", ["T2"]), ("T2", ["T1"]), ("T1", [])]
    [("T2", ["T3"]), ("T1", ["T2"])] [("T1", ["g"])] (by decide) (by decide)

/-- `x` appears inside some value list of the dict. -/
def valElem (d : AList) (x : String) : Prop := ∃ e, hasEdge d e x

theorem valElem_of_mem {d : AList} {k x : String} {l : List String}
    (h : (k, l) ∈ d) (hx : x ∈ l) : valElem d x := ⟨k, l, h, hx⟩

theorem mem_dictUpdate_elim {d1 d2 : AList} {k : String} {l : List String}
    (h : (k, l) ∈ dictUpdate d1 d2) : (k, l) ∈ d1 ∨ (k, l) ∈ d2 := by
  unfold dictUpdate at h
  rcases List.mem_append.mp h with h | h
  · rcases List.mem_map.mp h with ⟨p, hp, himg⟩
    cases hlk : lookupD d2 p.1 with
    | some v =>
      rw [hlk] at himg
      right
      have h1 : p.1 = k := congrArg Prod.fst himg
      have h2 : v = l := congrArg Prod.snd himg
      exact mem_of_lookupD_eq_some (h1 ▸ h2 ▸ hlk)
    | none =>
      rw [hlk] at himg
      left
      exact himg ▸ hp
  · exact Or.inr (List.mem_of_mem_filter h)

theorem hasEdge_delKey {d : AList} {k a b : String}
    (h : hasEdge (delKey d k) a b) : hasEdge d a b := by
  rcases h with ⟨l, hmem, hb⟩
  exact ⟨l, (List.eraseP_sublist d).mem hmem, hb⟩

theorem keyMem_delKey_mono {d : AList} {k t : String}
    (h : keyMem (delKey d k) t = true) : keyMem d t = true := by
  rw [keyMem_iff_mem_keysOf] at h ⊢
  rcases List.mem_map.mp h with ⟨p, hp, hfst⟩
  exact hfst ▸ List.mem_map_of_mem Prod.fst ((List.eraseP_sublist d).mem hp)

theorem nodup_keysOf_delKey {d : AList} (hnd : (keysOf d).Nodup)
    (k : String) : (keysOf (delKey d k)).Nodup :=
  (((List.eraseP_sublist d).map Prod.fst).nodup hnd)

theorem keyMem_reverse_graph_elim {g : AList} {x : String}
    (h : keyMem (reverse_graph g) x = true) : valElem g x := by
  rcases lookupD_isSome_of_keyMem h with ⟨l, hl⟩
  have hmem := mem_of_lookupD_eq_some hl
  have hne : l ≠ [] := snd_ne_nil_reverse_graph g (x, l) hmem
  rcases List.exists_mem_of_ne_nil l hne with ⟨y, hy⟩
  have : hasEdge g y x := (hasEdge_reverse_graph g x y).mp ⟨l, hmem, hy⟩
  exact ⟨y, this⟩

theorem valElem_reverse_graph_elim {g : AList} {x : String}
    (h : valElem (reverse_graph g) x) : ∃ e, hasEdge g x e := by
  rcases h with ⟨e, he⟩
  exact ⟨e, (hasEdge_reverse_graph g e x).mp he⟩

/-- Keys of a merged pair of reversed dicts are bound to nonempty parent
lists, and conversely. -/
theorem dictUpdate_rev_key_iff (s1 s2 : AList) (k : String) :
    keyMem (dictUpdate (reverse_graph s1) (reverse_graph s2)) k = true ↔
      ∃ l, lookupD (dictUpdate (reverse_graph s1) (reverse_graph s2)) k
        = some l ∧ l ≠ [] := by
  constructor
  · intro h
    rcases lookupD_isSome_of_keyMem h with ⟨l, hl⟩
    refine ⟨l, hl, ?_⟩
    rcases mem_dictUpdate_elim (mem_of_lookupD_eq_some hl) with hm | hm
    · exact snd_ne_nil_reverse_graph s1 (k, l) hm
    · exact snd_ne_nil_reverse_graph s2 (k, l) hm
  · rintro ⟨l, hl, _⟩
    cases hb : keyMem (dictUpdate (reverse_graph s1) (reverse_graph s2)) k with
    | true => rfl
    | false =>
      rw [(lookupD_eq_none_iff _ _).mpr hb] at hl
      exact Option.noConfusion hl

theorem trim_top_foldl_hasEdge :
    ∀ (ts : List String) (st : AList × AList) (a b : String),
      (hasEdge (ts.foldl (fun st t => trim_term_top t st) st).1 a b →
        hasEdge st.1 a b) ∧
      (hasEdge (ts.foldl (fun st t => trim_term_top t st) st).2 a b →
        hasEdge st.2 a b) := by
  intro ts
  induction ts with
  | nil => intro st a b; exact ⟨id, id⟩
  | cons t ts ih =>
    intro st a b
    rw [List.foldl_cons]
    obtain ⟨ih1, ih2⟩ := ih (trim_term_top t st) a b
    exact ⟨fun h => hasEdge_delKey (ih1 h), fun h => hasEdge_delKey (ih2 h)⟩

theorem trim_top_foldl_keyMem_mono :
    ∀ (ts : List String) (st : AList × AList) (k : String),
      (keyMem (ts.foldl (fun st t => trim_term_top t st) st).1 k = true →
        keyMem st.1 k = true) ∧
      (keyMem (ts.foldl (fun st t => trim_term_top t st) st).2 k = true →
        keyMem st.2 k = true) := by
  intro ts
  induction ts with
  | nil => intro st k; exact ⟨id, id⟩
  | cons t ts ih =>
    intro st k
    rw [List.foldl_cons]
    obtain ⟨ih1, ih2⟩ := ih (trim_term_top t st) k
    exact ⟨fun h => keyMem_delKey_mono (ih1 h),
      fun h => keyMem_delKey_mono (ih2 h)⟩

theorem trim_top_foldl_removes :
    ∀ (ts : List String) (st : AList × AList),
      (keysOf st.1).Nodup → (keysOf st.2).Nodup → ∀ t ∈ ts,
      keyMem (ts.foldl (fun st t => trim_term_top t st) st).1 t = false ∧
      keyMem (ts.foldl (fun st t => trim_term_top t st) st).2 t = false := by
  intro ts
  induction ts with
  | nil => intro st _ _ t ht; simp at ht
  | cons t0 ts ih =>
    intro st hnd1 hnd2 t ht
    rw [List.foldl_cons]
    rcases List.mem_cons.mp ht with he | ht'
    · constructor
      · cases hb : keyMem (ts.foldl (fun st t => trim_term_top t st)
            (trim_term_top t0 st)).1 t with
        | false => rfl
        | true =>
          exfalso
          have h1 := (trim_top_foldl_keyMem_mono ts (trim_term_top t0 st) t).1 hb
          rw [he] at h1
          have h2 : keyMem (delKey st.1 t0) t0 = true := h1
          rw [keyMem_delKey_self hnd1 t0] at h2
          exact Bool.noConfusion h2
      · cases hb : keyMem (ts.foldl (fun st t => trim_term_top t st)
            (trim_term_top t0 st)).2 t with
        | false => rfl
        | true =>
          exfalso
          have h1 := (trim_top_foldl_keyMem_mono ts (trim_term_top t0 st) t).2 hb
          rw [he] at h1
          have h2 : keyMem (delKey st.2 t0) t0 = true := h1
          rw [keyMem_delKey_self hnd2 t0] at h2
          exact Bool.noConfusion h2
    · exact ih (trim_term_top t0 st) (nodup_keysOf_delKey hnd1 t0)
        (nodup_keysOf_delKey hnd2 t0) t ht'

theorem keyMem_of_hasEdge {d : AList} {a b : String}
    (h : hasEdge d a b) : keyMem d a = true := by
  rcases h with ⟨l, hm, _⟩
  exact (keyMem_iff_mem_keysOf d a).mpr (List.mem_map_of_mem Prod.fst hm)

theorem valElem_delKey {d : AList} {k x : String}
    (h : valElem (delKey d k) x) : valElem d x := by
  rcases h with ⟨e, he⟩
  exact ⟨e, hasEdge_delKey he⟩

theorem nodup_keysOf_filter {DAG : AList} (hnd : (keysOf DAG).Nodup)
    (f : String × List String → Bool) : (keysOf (DAG.filter f)).Nodup :=
  ((DAG.filter_sublist).map Prod.fst).nodup hnd

theorem trim_parent_step_valElem {term p : String} {st st2 : AList × AList}
    (h : trim_parent_step term p st = some st2) :
    (∀ x, valElem st2.1 x → valElem st.1 x) ∧
    (∀ x, valElem st2.2 x → valElem st.2 x) := by
  rcases trim_parent_step_eq h with ⟨l, tg, hl, hterm, htg, hst2⟩
  have hgd : ∀ y ly x, (y, ly) ∈ (if keyMem st.2 p then st.2
      else st.2 ++ [(p, [])]) → x ∈ ly → valElem st.2 x := by
    intro y ly x hmy hxy
    by_cases hk : keyMem st.2 p = true
    · rw [if_pos hk] at hmy
      exact valElem_of_mem hmy hxy
    · rw [if_neg hk] at hmy
      rcases List.mem_append.mp hmy with hmy | hmy
      · exact valElem_of_mem hmy hxy
      · simp only [List.mem_singleton] at hmy
        have hly : ly = [] := congrArg Prod.snd hmy
        rw [hly] at hxy
        simp at hxy
  constructor
  · intro x hx
    rw [hst2] at hx
    rcases hx with ⟨e, le, hmem, hxe⟩
    rcases mem_setKey_elim hmem with ⟨_, hle⟩ | ⟨hmem', _⟩
    · exact valElem_of_mem (mem_of_lookupD_eq_some hl)
        (List.mem_of_mem_erase (hle ▸ hxe))
    · exact ⟨e, le, hmem', hxe⟩
  · intro x hx
    rw [hst2] at hx
    rcases hx with ⟨e, le, hmem, hxe⟩
    rcases mem_setKey_elim hmem with ⟨_, hle⟩ | ⟨hmem', _⟩
    · have hx2 : x ∈ ((lookupD (if keyMem st.2 p then st.2
          else st.2 ++ [(p, [])]) p).getD [] ++ tg) :=
        List.mem_dedup.mp (hle ▸ hxe)
      rcases List.mem_append.mp hx2 with hx2 | hx2
      · cases hcur : lookupD (if keyMem st.2 p then st.2
            else st.2 ++ [(p, [])]) p with
        | none =>
          rw [hcur] at hx2
          simp at hx2
        | some cur =>
          rw [hcur] at hx2
          simp only [Option.getD_some] at hx2
          exact hgd p cur x (mem_of_lookupD_eq_some hcur) hx2
      · exact hgd term tg x (mem_of_lookupD_eq_some htg) hx2
    · exact hgd e le x hmem' hxe

theorem foldlM_trim_parent_valElem (term : String) :
    ∀ (ps : List String) (st st' : AList × AList),
      ps.foldlM (fun s p => trim_parent_step term p s) st = some st' →
      (∀ x, valElem st'.1 x → valElem st.1 x) ∧
      (∀ x, valElem st'.2 x → valElem st.2 x) := by
  intro ps
  induction ps with
  | nil =>
    intro st st' h
    rw [← Option.some.inj h]
    exact ⟨fun x => id, fun x => id⟩
  | cons p ps ih =>
    intro st st' h
    rw [List.foldlM_cons] at h
    cases hstep : trim_parent_step term p st with
    | none => rw [hstep] at h; exact Option.noConfusion h
    | some st1 =>
      rw [hstep] at h
      obtain ⟨ih1, ih2⟩ := ih st1 st' h
      obtain ⟨s1, s2⟩ := trim_parent_step_valElem hstep
      exact ⟨fun x hx => s1 x (ih1 x hx), fun x hx => s2 x (ih2 x hx)⟩

theorem trim_term_bottom_valElem {term : String} {ttd : AList}
    {st st2 : AList × AList} (h : trim_term_bottom term ttd st = some st2) :
    (∀ x, valElem st2.1 x → valElem st.1 x) ∧
    (∀ x, valElem st2.2 x → valElem st.2 x) := by
  rcases trim_term_bottom_eq h with ⟨st', hf, _, hst2⟩
  obtain ⟨h1, h2⟩ := foldlM_trim_parent_valElem term _ st st' hf
  constructor
  · intro x hx
    rw [hst2] at hx
    exact h1 x (valElem_delKey hx)
  · intro x hx
    rw [hst2] at hx
    exact h2 x (valElem_delKey hx)

theorem foldlM_trim_bottom_valElem (ttd : AList) :
    ∀ (ts : List String) (st st' : AList × AList),
      ts.foldlM (fun st t => trim_term_bottom t ttd st) st = some st' →
      (∀ x, valElem st'.1 x → valElem st.1 x) ∧
      (∀ x, valElem st'.2 x → valElem st.2 x) := by
  intro ts
  induction ts with
  | nil =>
    intro st st' h
    rw [← Option.some.inj h]
    exact ⟨fun x => id, fun x => id⟩
  | cons t ts ih =>
    intro st st' h
    rw [List.foldlM_cons] at h
    cases hstep : trim_term_bottom t ttd st with
    | none => rw [hstep] at h; exact Option.noConfusion h
    | some st1 =>
      rw [hstep] at h
      obtain ⟨ih1, ih2⟩ := ih st1 st' h
      obtain ⟨s1, s2⟩ := trim_term_bottom_valElem hstep
      exact ⟨fun x hx => s1 x (ih1 x hx), fun x hx => s2 x (ih2 x hx)⟩

theorem trim_DAG_bottom_eq {DAG : AList} {all_terms trim_terms : List String}
    {res : AList} (h : trim_DAG_bottom DAG all_terms trim_terms = some res) :
    ∃ st, trim_terms.foldlM (fun st t =>
        trim_term_bottom t (DAG.filter (fun p => decide (p.1 ∈ all_terms))) st)
        (reverse_graph (DAG.filter (fun p => decide (p.1 ∈ all_terms))),
         reverse_graph (DAG.filter (fun p => decide (p.1 ∉ all_terms))))
        = some st ∧
      res = dictUpdate (reverse_graph st.1) (reverse_graph st.2) := by
  simp only [trim_DAG_bottom] at h
  cases hf : trim_terms.foldlM (fun st t =>
      trim_term_bottom t (DAG.filter (fun p => decide (p.1 ∈ all_terms))) st)
      (reverse_graph (DAG.filter (fun p => decide (p.1 ∈ all_terms))),
       reverse_graph (DAG.filter (fun p => decide (p.1 ∉ all_terms)))) with
  | none => rw [hf] at h; exact Option.noConfusion h
  | some st =>
    rw [hf] at h
    exact ⟨st, rfl, (Option.some.inj h).symm⟩

theorem trim_DAG_top_eq (DAG : AList) (all_terms trim_terms : List String) :
    trim_DAG_top DAG all_terms trim_terms
      = dictUpdate
          (reverse_graph (trim_terms.foldl (fun st t => trim_term_top t st)
            (reverse_graph (DAG.filter (fun p => decide (p.1 ∈ all_terms))),
             reverse_graph (DAG.filter (fun p => decide (p.1 ∉ all_terms))))).1)
          (reverse_graph (trim_terms.foldl (fun st t => trim_term_top t st)
            (reverse_graph (DAG.filter (fun p => decide (p.1 ∈ all_terms))),
             reverse_graph (DAG.filter
               (fun p => decide (p.1 ∉ all_terms))))).2) := rfl

/-- Any key of a top-trimmed result traces back to an entry of one of the
two slices of the base DAG whose parent list is nonempty. -/
theorem keyMem_trim_top_source (DAG : AList)
    (all_terms trim_terms : List String) (k : String)
    (hb : keyMem (trim_DAG_top DAG all_terms trim_terms) k = true) :
    ∃ e l', ((k, l') ∈ DAG.filter (fun p => decide (p.1 ∈ all_terms)) ∨
        (k, l') ∈ DAG.filter (fun p => decide (p.1 ∉ all_terms))) ∧
      e ∈ l' := by
  rw [trim_DAG_top_eq] at hb
  rcases lookupD_isSome_of_keyMem hb with ⟨l, hl⟩
  have hsrc := mem_dictUpdate_elim (mem_of_lookupD_eq_some hl)
  rcases hsrc with hm | hm
  · have hk : keyMem (reverse_graph (trim_terms.foldl
        (fun st t => trim_term_top t st)
        (reverse_graph (DAG.filter (fun p => decide (p.1 ∈ all_terms))),
         reverse_graph (DAG.filter (fun p => decide (p.1 ∉ all_terms))))).1)
        k = true :=
      (keyMem_iff_mem_keysOf _ k).mpr (List.mem_map_of_mem Prod.fst hm)
    rcases keyMem_reverse_graph_elim hk with ⟨e, he⟩
    have he2 := (trim_top_foldl_hasEdge trim_terms _ e k).1 he
    have he3 := (hasEdge_reverse_graph _ e k).mp he2
    rcases he3 with ⟨l', hm', hel'⟩
    exact ⟨e, l', Or.inl hm', hel'⟩
  · have hk : keyMem (reverse_graph (trim_terms.foldl
        (fun st t => trim_term_top t st)
        (reverse_graph (DAG.filter (fun p => decide (p.1 ∈ all_terms))),
         reverse_graph (DAG.filter (fun p => decide (p.1 ∉ all_terms))))).2)
        k = true :=
      (keyMem_iff_mem_keysOf _ k).mpr (List.mem_map_of_mem Prod.fst hm)
    rcases keyMem_reverse_graph_elim hk with ⟨e, he⟩
    have he2 := (trim_top_foldl_hasEdge trim_terms _ e k).2 he
    have he3 := (hasEdge_reverse_graph _ e k).mp he2
    rcases he3 with ⟨l', hm', hel'⟩
    exact ⟨e, l', Or.inr hm', hel'⟩

/-- Any key of a bottom-trimmed result traces back to an entry of one of
the two slices of the base DAG whose parent list is nonempty. -/
theorem keyMem_trim_bottom_source {DAG : AList}
    {all_terms trim_terms : List String} {res : AList}
    (h : trim_DAG_bottom DAG all_terms trim_terms = some res) (k : String)
    (hb : keyMem res k = true) :
    ∃ e l', ((k, l') ∈ DAG.filter (fun p => decide (p.1 ∈ all_terms)) ∨
        (k, l') ∈ DAG.filter (fun p => decide (p.1 ∉ all_terms))) ∧
      e ∈ l' := by
  rcases trim_DAG_bottom_eq h with ⟨st, hf, hres⟩
  rw [hres] at hb
  rcases lookupD_isSome_of_keyMem hb with ⟨l, hl⟩
  obtain ⟨hv1, hv2⟩ := foldlM_trim_bottom_valElem _ trim_terms _ st hf
  rcases mem_dictUpdate_elim (mem_of_lookupD_eq_some hl) with hm | hm
  · have hk : keyMem (reverse_graph st.1) k = true :=
      (keyMem_iff_mem_keysOf _ k).mpr (List.mem_map_of_mem Prod.fst hm)
    have hval := hv1 k (keyMem_reverse_graph_elim hk)
    rcases valElem_reverse_graph_elim hval with ⟨e, he⟩
    rcases he with ⟨l', hm', hel'⟩
    exact ⟨e, l', Or.inl hm', hel'⟩
  · have hk : keyMem (reverse_graph st.2) k = true :=
      (keyMem_iff_mem_keysOf _ k).mpr (List.mem_map_of_mem Prod.fst hm)
    have hval := hv2 k (keyMem_reverse_graph_elim hk)
    rcases valElem_reverse_graph_elim hval with ⟨e, he⟩
    rcases he with ⟨l', hm', hel'⟩
    exact ⟨e, l', Or.inr hm', hel'⟩

theorem no_entry_for_root {DAG : AList} (hnd : (keysOf DAG).Nodup)
    {k e : String} {l' : List String} (hm : (k, l') ∈ DAG) (he : e ∈ l')
    (hroot : lookupD DAG k = none ∨ lookupD DAG k = some []) : False := by
  have hlk := lookupD_eq_some_of_mem hnd hm
  rcases hroot with hn | hs
  · rw [hn] at hlk
    exact Option.noConfusion hlk
  · rw [hs] at hlk
    have : ([] : List String) = l' := Option.some.inj hlk
    rw [← this] at he
    simp at he

/-- C1 counterexample: top-trimming "T", which still has the surviving
parent "P", leaves "T" as a key of the result (bound to its old parents):
`trim_term_top` deletes T's entry in the parent→children direction only, so
T's own parent edges survive the reverse-back. -/
theorem trim_DAG_top_keeps_trimmed_key_counterexample :
    trim_DAG_top [("T", ["P"])] ["T", "P"] ["T"] = [("T", ["P"])] ∧
    keyMem (trim_DAG_top [("T", ["P"])] ["T", "P"] ["T"]) "T" = true := by
  exact ⟨by decide, by decide⟩

/-- C1 (amended): after `trim_DAG_top` with `T` in the removal list, no
remaining node's parent list contains `T` (unconditionally); and `T` itself
is absent as a key of the result provided `T` has no parents in the base
DAG (it is not a key, or is bound to the empty list).  A removed term that
still has a surviving parent remains as a key — see the counterexample. -/
theorem trim_DAG_top_removes (DAG : AList) (all_terms trim_terms : List String)
    (T : String) (hT : T ∈ trim_terms) (hnd : (keysOf DAG).Nodup) :
    (∀ k l, lookupD (trim_DAG_top DAG all_terms trim_terms) k = some l →
      T ∉ l) ∧
    ((lookupD DAG T = none ∨ lookupD DAG T = some []) →
      keyMem (trim_DAG_top DAG all_terms trim_terms) T = false) := by
  have hnd1 : (keysOf (reverse_graph
      (DAG.filter (fun p => decide (p.1 ∈ all_terms))))).Nodup :=
    nodup_keysOf_reverse_graph _
  have hnd2 : (keysOf (reverse_graph
      (DAG.filter (fun p => decide (p.1 ∉ all_terms))))).Nodup :=
    nodup_keysOf_reverse_graph _
  constructor
  · intro k l hl hTl
    rw [trim_DAG_top_eq] at hl
    have hrem := trim_top_foldl_removes trim_terms
      (reverse_graph (DAG.filter (fun p => decide (p.1 ∈ all_terms))),
       reverse_graph (DAG.filter (fun p => decide (p.1 ∉ all_terms))))
      hnd1 hnd2 T hT
    rcases mem_dictUpdate_elim (mem_of_lookupD_eq_some hl) with hm | hm
    · have hE : hasEdge (reverse_graph (trim_terms.foldl
          (fun st t => trim_term_top t st)
          (reverse_graph (DAG.filter (fun p => decide (p.1 ∈ all_terms))),
           reverse_graph (DAG.filter (fun p => decide (p.1 ∉ all_terms))))).1)
          k T := ⟨l, hm, hTl⟩
      have hk := keyMem_of_hasEdge ((hasEdge_reverse_graph _ k T).mp hE)
      rw [hrem.1] at hk
      exact Bool.noConfusion hk
    · have hE : hasEdge (reverse_graph (trim_terms.foldl
          (fun st t => trim_term_top t st)
          (reverse_graph (DAG.filter (fun p => decide (p.1 ∈ all_terms))),
           reverse_graph (DAG.filter (fun p => decide (p.1 ∉ all_terms))))).2)
          k T := ⟨l, hm, hTl⟩
      have hk := keyMem_of_hasEdge ((hasEdge_reverse_graph _ k T).mp hE)
      rw [hrem.2] at hk
      exact Bool.noConfusion hk
  · intro hroot
    cases hb : keyMem (trim_DAG_top DAG all_terms trim_terms) T with
    | false => rfl
    | true =>
      exfalso
      rcases keyMem_trim_top_source DAG all_terms trim_terms T hb
        with ⟨e, l', hm, hel'⟩
      rcases hm with hm | hm
      · exact no_entry_for_root hnd (List.mem_of_mem_filter hm) hel' hroot
      · exact no_entry_for_root hnd (List.mem_of_mem_filter hm) hel' hroot

/-- Witness for C1's amended theorem: trimming the parentless term "T". -/
theorem trim_DAG_top_removes_witness :
    (∀ k l, lookupD (trim_DAG_top [("C", ["T"])] ["C", "T"] ["T"]) k = some l →
      "T" ∉ l) ∧
    ((lookupD [("C", ["T"])] "T" = none ∨
        lookupD [("C", ["T"])] "T" = some []) →
      keyMem (trim_DAG_top [("C", ["T"])] ["C", "T"] ["T"]) "T" = false) :=
  trim_DAG_top_removes [("C", ["T"])] ["C", "T"] ["T"] "T"
    (by decide) (by decide)

/-- C10: a node is a key of a trimmed DAG (either variant) iff it has at
least one parent there; in particular a node bound to the empty parent
list in the base DAG (a root) never appears as a key of the result. -/
theorem trim_DAG_key_iff_parent (DAG : AList)
    (all_terms trim_terms : List String) (hnd : (keysOf DAG).Nodup) :
    (∀ res, trim_DAG_bottom DAG all_terms trim_terms = some res →
      (∀ k, keyMem res k = true ↔
        ∃ l, lookupD res k = some l ∧ l ≠ []) ∧
      (∀ r, lookupD DAG r = some [] → keyMem res r = false)) ∧
    ((∀ k, keyMem (trim_DAG_top DAG all_terms trim_terms) k = true ↔
        ∃ l, lookupD (trim_DAG_top DAG all_terms trim_terms) k = some l ∧
          l ≠ []) ∧
      (∀ r, lookupD DAG r = some [] →
        keyMem (trim_DAG_top DAG all_terms trim_terms) r = false)) := by
  constructor
  · intro res hres
    rcases trim_DAG_bottom_eq hres with ⟨st, hf, hshape⟩
    constructor
    · intro k
      rw [hshape]
      exact dictUpdate_rev_key_iff st.1 st.2 k
    · intro r hr
      cases hb : keyMem res r with
      | false => rfl
      | true =>
        exfalso
        rcases keyMem_trim_bottom_source hres r hb with ⟨e, l', hm, hel'⟩
        rcases hm with hm | hm
        · exact no_entry_for_root hnd (List.mem_of_mem_filter hm) hel'
            (Or.inr hr)
        · exact no_entry_for_root hnd (List.mem_of_mem_filter hm) hel'
            (Or.inr hr)
  · constructor
    · intro k
      rw [trim_DAG_top_eq]
      exact dictUpdate_rev_key_iff _ _ k
    · intro r hr
      cases hb : keyMem (trim_DAG_top DAG all_terms trim_terms) r with
      | false => rfl
      | true =>
        exfalso
        rcases keyMem_trim_top_source DAG all_terms trim_terms r hb
          with ⟨e, l', hm, hel'⟩
        rcases hm with hm | hm
        · exact no_entry_for_root hnd (List.mem_of_mem_filter hm) hel'
            (Or.inr hr)
        · exact no_entry_for_root hnd (List.mem_of_mem_filter hm) hel'
            (Or.inr hr)

/-- Witness for C10 on the spec's worked example. -/
theorem trim_DAG_key_iff_parent_witness :
    ((keyMem [("T2", ["T1"]), ("gene1", ["T2"]), ("gene2", ["T2"])]
        "T1" = true ↔
      ∃ l, lookupD [("T2", ["T1"]), ("gene1", ["T2"]), ("gene2", ["T2"])]
          "T1" = some l ∧ l ≠ []) ∧
     keyMem [("T2", ["T1"]), ("gene1", ["T2"]), ("gene2", ["T2"])]
        "T1" = false) := by
  have h := trim_DAG_key_iff_parent
    [("gene1", ["T3"]), ("gene2", ["T3"]), ("T3", ["T2"]), ("T2", ["T1"]),
      ("T1", [])] ["T1", "T2", "T3"] ["T3"] (by decide)
  have hr := h.1 [("T2", ["T1"]), ("gene1", ["T2"]), ("gene2", ["T2"])]
    (by decide)
  exact ⟨hr.1 "T1", hr.2 "T1" (by decide)⟩

/-
Heap-explicit model for the frame claim about the trim entry points.  A
Python list is a mutable object; here every list lives in a heap cell
addressed by a `Nat` reference, dicts map keys to references, and an
allocation counter hands out fresh references.  The base DAG's comprehension
slices share references with the base DAG, so a write through a slice would
be visible in the base DAG — the frame theorem shows no such write occurs.
-/

/-- The heap of list objects. -/
abbrev Heap := Nat → List String

/-- A dict whose values are references to heap cells. -/
abbrev HDict := List (String × Nat)

/-- Write a heap cell. -/
def hset (h : Heap) (r : Nat) (v : List String) : Heap :=
  fun i => if i = r then v else h i

def hlookup (d : HDict) (k : String) : Option Nat :=
  (d.find? (fun p => p.1 == k)).map Prod.snd

def hkeyMem (d : HDict) (k : String) : Bool := d.any (fun p => p.1 == k)

def hsetKey (d : HDict) (k : String) (r : Nat) : HDict :=
  d.map (fun p => if p.1 = k then (k, r) else p)

def hdelKey (d : HDict) (k : String) : HDict :=
  d.eraseP (fun p => p.1 == k)

/-- Read a heap dict back as a value dict. -/
def materialize (h : Heap) (d : HDict) : AList :=
  d.map (fun p => (p.1, h p.2))

/-- Heap-level inner step of `reverse_graph`: `if e not in reverse:
reverse[e] = []` allocates a fresh cell, `reverse[e].append(v)` writes it;
the two writes to the same fresh cell are collapsed into allocating `[v]`. -/
def addEdge_h (s : Heap × Nat) (rev : HDict) (e v : String) :
    (Heap × Nat) × HDict :=
  match hlookup rev e with
  | some r => ((hset s.1 r (s.1 r ++ [v]), s.2), rev)
  | none => ((hset s.1 s.2 [v], s.2 + 1), rev ++ [(e, s.2)])

/-- Heap-level `reverse_graph`: reads `graph[v]` through the heap, builds a
fresh dict of fresh cells. -/
def reverse_graph_h (s : Heap × Nat) (d : HDict) : (Heap × Nat) × HDict :=
  d.foldl (fun acc p =>
    (acc.1.1 p.2).foldl (fun acc2 e => addEdge_h acc2.1 acc2.2 e p.1) acc)
    (s, [])

/-- `if p not in gene_dict_rev: gene_dict_rev[p] = []` — allocate a fresh
empty cell for a missing key. -/
def ensureKey_h (s : Heap × Nat) (gdr : HDict) (p : String) :
    (Heap × Nat) × HDict :=
  if hkeyMem gdr p then (s, gdr)
  else ((hset s.1 s.2 [], s.2 + 1), gdr ++ [(p, s.2)])

/-- The `some r` branch of the per-parent loop body, `r` being the heap
cell of `term_dict_rev[p]`: `term_dict_rev[p].remove(term)` writes p's term
cell in place; the gene slot for `p` is allocated if missing;
`gene_dict_rev[p].extend(gene_dict_rev[term])` writes p's gene cell in
place; `gene_dict_rev[p] = list(set(..))` allocates a fresh deduplicated
list and rebinds the dict slot. -/
def trim_parent_body_h (term p : String) (s : (Heap × Nat) × HDict × HDict)
    (r : Nat) : Option ((Heap × Nat) × HDict × HDict) :=
  if term ∈ s.1.1 r then
    let st2 := ensureKey_h (hset s.1.1 r ((s.1.1 r).erase term), s.1.2)
      s.2.2 p
    match hlookup st2.2 term with
    | none => none
    | some tr =>
      match hlookup st2.2 p with
      | none => none
      | some rp =>
        some ((hset (hset st2.1.1 rp (st2.1.1 rp ++ st2.1.1 tr)) st2.1.2
            ((st2.1.1 rp ++ st2.1.1 tr).dedup), st2.1.2 + 1),
          s.2.1, hsetKey st2.2 p st2.1.2)
  else none

/-- Heap-level body of the `for p in parents` loop of `trim_term_bottom`;
`term_dict_rev[p]` KeyError and `list.remove` ValueError are `none`. -/
def trim_parent_step_h (term p : String)
    (s : (Heap × Nat) × HDict × HDict) :
    Option ((Heap × Nat) × HDict × HDict) :=
  match hlookup s.2.1 p with
  | none => none
  | some r => trim_parent_body_h term p s r

/-- Heap-level `trim_term_bottom`; `parents` is read (and deep-copied, a
pure read) before the loop. -/
def trim_term_bottom_h (term : String) (ttd : HDict)
    (s : (Heap × Nat) × HDict × HDict) :
    Option ((Heap × Nat) × HDict × HDict) :=
  let parents := match hlookup ttd term with
    | some r => s.1.1 r
    | none => []
  match parents.foldlM (fun s p => trim_parent_step_h term p s) s with
  | none => none
  | some s' =>
    if hkeyMem s'.2.2 term then
      some (s'.1, hdelKey s'.2.1 term, hdelKey s'.2.2 term)
    else none

/-- Heap-level `trim_term_top`: dict-slot deletion only, no heap write. -/
def trim_term_top_h (term : String) (st : HDict × HDict) : HDict × HDict :=
  (hdelKey st.1 term, hdelKey st.2 term)

/-- Heap-level `trim_DAG_bottom`.  The slices share the base DAG's
references; the working reversed dicts own fresh cells.  The final
reverse-back-and-merge only reads the trimmed dicts and builds fresh value
dicts, modelled with the value-level `reverse_graph`/`dictUpdate` on the
materialized dicts. -/
def trim_DAG_bottom_h (s0 : Heap × Nat) (DAG_h : HDict)
    (all_terms trim_terms : List String) :
    Option ((Heap × Nat) × AList) :=
  let ttd := DAG_h.filter (fun p => decide (p.1 ∈ all_terms))
  let tgd := DAG_h.filter (fun p => decide (p.1 ∉ all_terms))
  let r1 := reverse_graph_h s0 ttd
  let r2 := reverse_graph_h r1.1 tgd
  match trim_terms.foldlM (fun st t => trim_term_bottom_h t ttd st)
      (r2.1, r1.2, r2.2) with
  | none => none
  | some s' =>
    some (s'.1, dictUpdate (reverse_graph (materialize s'.1.1 s'.2.1))
      (reverse_graph (materialize s'.1.1 s'.2.2)))

/-- Heap-level `trim_DAG_top`. -/
def trim_DAG_top_h (s0 : Heap × Nat) (DAG_h : HDict)
    (all_terms trim_terms : List String) : (Heap × Nat) × AList :=
  let ttd := DAG_h.filter (fun p => decide (p.1 ∈ all_terms))
  let tgd := DAG_h.filter (fun p => decide (p.1 ∉ all_terms))
  let r1 := reverse_graph_h s0 ttd
  let r2 := reverse_graph_h r1.1 tgd
  let st := trim_terms.foldl (fun st t => trim_term_top_h t st)
    (r1.2, r2.2)
  (r2.1, dictUpdate (reverse_graph (materialize r2.1.1 st.1))
    (reverse_graph (materialize r2.1.1 st.2)))

example :
    (trim_DAG_bottom_h
      (fun r => if r = 0 then ["T3"] else if r = 1 then ["T3"]
        else if r = 2 then ["T2"] else if r = 3 then ["T1"] else [], 5)
      [("gene1", 0), ("gene2", 1), ("T3", 2), ("T2", 3), ("T1", 4)]
      ["T1", "T2", "T3"] ["T3"]).map (fun x => x.2)
    = some [("T2", ["T1"]), ("gene1", ["T2"]), ("gene2", ["T2"])] := by
  decide

theorem hset_frame {h : Heap} {r r' : Nat} (hne : r' ≠ r)
    (v : List String) : hset h r v r' = h r' := by
  unfold hset
  rw [if_neg hne]

theorem hmem_of_hlookup {d : HDict} {k : String} {r : Nat}
    (h : hlookup d k = some r) : (k, r) ∈ d := by
  unfold hlookup at h
  cases hf : d.find? (fun p => p.1 == k) with
  | none => rw [hf] at h; exact Option.noConfusion h
  | some a =>
    rw [hf] at h
    have ha : a ∈ d := List.mem_of_find?_eq_some hf
    have hk := List.find?_some hf
    have he : a = (k, r) := by
      cases a with
      | mk x y =>
        simp at h hk
        simp [hk, h]
    rwa [he] at ha

theorem addEdge_h_spec {N : Nat} {s : Heap × Nat} {rev : HDict}
    (hN : N ≤ s.2) (hrev : ∀ p ∈ rev, N ≤ p.2) (e v : String) :
    N ≤ (addEdge_h s rev e v).1.2 ∧ s.2 ≤ (addEdge_h s rev e v).1.2 ∧
      (∀ p ∈ (addEdge_h s rev e v).2, N ≤ p.2) ∧
      (∀ r, r < N → (addEdge_h s rev e v).1.1 r = s.1 r) := by
  unfold addEdge_h
  cases hl : hlookup rev e with
  | some r =>
    refine ⟨hN, le_refl _, hrev, ?_⟩
    intro r' hr'
    have hrN : N ≤ r := hrev (e, r) (hmem_of_hlookup hl)
    exact hset_frame (by omega) _
  | none =>
    refine ⟨by simp; omega, by simp, ?_, ?_⟩
    · intro p hp
      rcases List.mem_append.mp hp with hp | hp
      · exact hrev p hp
      · simp at hp
        rw [hp]
        exact hN
    · intro r' hr'
      exact hset_frame (by omega) _

theorem addEdge_h_foldl_spec (N : Nat) (v : String) :
    ∀ (l : List String) (acc : (Heap × Nat) × HDict),
      N ≤ acc.1.2 → (∀ p ∈ acc.2, N ≤ p.2) →
      (N ≤ (l.foldl (fun a e => addEdge_h a.1 a.2 e v) acc).1.2 ∧
       acc.1.2 ≤ (l.foldl (fun a e => addEdge_h a.1 a.2 e v) acc).1.2 ∧
       (∀ p ∈ (l.foldl (fun a e => addEdge_h a.1 a.2 e v) acc).2, N ≤ p.2) ∧
       (∀ r, r < N →
         (l.foldl (fun a e => addEdge_h a.1 a.2 e v) acc).1.1 r
           = acc.1.1 r)) := by
  intro l
  induction l with
  | nil => intro acc h1 h2; exact ⟨h1, le_refl _, h2, fun r _ => rfl⟩
  | cons e l ih =>
    intro acc h1 h2
    rw [List.foldl_cons]
    obtain ⟨a1, a2, a3, a4⟩ := addEdge_h_spec h1 h2 e v
    obtain ⟨b1, b2, b3, b4⟩ := ih (addEdge_h acc.1 acc.2 e v) a1 a3
    refine ⟨b1, le_trans a2 b2, b3, ?_⟩
    intro r hr
    rw [b4 r hr, a4 r hr]

theorem reverse_graph_h_foldl_spec (N : Nat) :
    ∀ (d : HDict) (acc : (Heap × Nat) × HDict),
      N ≤ acc.1.2 → (∀ p ∈ acc.2, N ≤ p.2) →
      (N ≤ (d.foldl (fun acc p => (acc.1.1 p.2).foldl
          (fun a e => addEdge_h a.1 a.2 e p.1) acc) acc).1.2 ∧
       acc.1.2 ≤ (d.foldl (fun acc p => (acc.1.1 p.2).foldl
          (fun a e => addEdge_h a.1 a.2 e p.1) acc) acc).1.2 ∧
       (∀ q ∈ (d.foldl (fun acc p => (acc.1.1 p.2).foldl
          (fun a e => addEdge_h a.1 a.2 e p.1) acc) acc).2, N ≤ q.2) ∧
       (∀ r, r < N → (d.foldl (fun acc p => (acc.1.1 p.2).foldl
          (fun a e => addEdge_h a.1 a.2 e p.1) acc) acc).1.1 r
          = acc.1.1 r)) := by
  intro d
  induction d with
  | nil => intro acc h1 h2; exact ⟨h1, le_refl _, h2, fun r _ => rfl⟩
  | cons p d ih =>
    intro acc h1 h2
    rw [List.foldl_cons]
    obtain ⟨a1, a2, a3, a4⟩ :=
      addEdge_h_foldl_spec N p.1 (acc.1.1 p.2) acc h1 h2
    obtain ⟨b1, b2, b3, b4⟩ := ih _ a1 a3
    refine ⟨b1, le_trans a2 b2, b3, ?_⟩
    intro r hr
    rw [b4 r hr, a4 r hr]

theorem reverse_graph_h_spec (N : Nat) (s : Heap × Nat) (d : HDict)
    (hN : N ≤ s.2) :
    N ≤ (reverse_graph_h s d).1.2 ∧ s.2 ≤ (reverse_graph_h s d).1.2 ∧
      (∀ q ∈ (reverse_graph_h s d).2, N ≤ q.2) ∧
      (∀ r, r < N → (reverse_graph_h s d).1.1 r = s.1 r) := by
  unfold reverse_graph_h
  exact reverse_graph_h_foldl_spec N d (s, []) hN (by simp)

theorem ensureKey_h_spec (N : Nat) (s : Heap × Nat) (gdr : HDict)
    (p : String) (hN : N ≤ s.2) (hg : ∀ q ∈ gdr, N ≤ q.2) :
    N ≤ (ensureKey_h s gdr p).1.2 ∧ s.2 ≤ (ensureKey_h s gdr p).1.2 ∧
      (∀ q ∈ (ensureKey_h s gdr p).2, N ≤ q.2) ∧
      (∀ r, r < N → (ensureKey_h s gdr p).1.1 r = s.1 r) := by
  unfold ensureKey_h
  by_cases hk : hkeyMem gdr p = true
  · rw [if_pos hk]
    exact ⟨hN, le_refl _, hg, fun r _ => rfl⟩
  · rw [if_neg hk]
    refine ⟨by simp; omega, by simp, ?_, ?_⟩
    · intro q hq
      rcases List.mem_append.mp hq with hq | hq
      · exact hg q hq
      · simp at hq
        rw [hq]
        exact hN
    · intro r hr
      exact hset_frame (by omega) _

theorem trim_parent_body_h_frame {N : Nat} {term p : String}
    {s s2 : (Heap × Nat) × HDict × HDict} {r : Nat}
    (hN : N ≤ s.1.2) (hd1 : ∀ q ∈ s.2.1, N ≤ q.2)
    (hd2 : ∀ q ∈ s.2.2, N ≤ q.2) (hr : N ≤ r)
    (h : trim_parent_body_h term p s r = some s2) :
    N ≤ s2.1.2 ∧ (∀ q ∈ s2.2.1, N ≤ q.2) ∧ (∀ q ∈ s2.2.2, N ≤ q.2) ∧
      (∀ r', r' < N → s2.1.1 r' = s.1.1 r') := by
  simp only [trim_parent_body_h] at h
  by_cases hterm : term ∈ s.1.1 r
  · rw [if_pos hterm] at h
    obtain ⟨e1, e2, e3, e4⟩ := ensureKey_h_spec N
      (hset s.1.1 r ((s.1.1 r).erase term), s.1.2) s.2.2 p hN hd2
    cases htr : hlookup (ensureKey_h (hset s.1.1 r ((s.1.1 r).erase term),
        s.1.2) s.2.2 p).2 term with
    | none => rw [htr] at h; exact Option.noConfusion h
    | some tr =>
      rw [htr] at h
      cases hrp : hlookup (ensureKey_h (hset s.1.1 r ((s.1.1 r).erase term),
          s.1.2) s.2.2 p).2 p with
      | none => rw [hrp] at h; exact Option.noConfusion h
      | some rp =>
        rw [hrp] at h
        have hs2 := (Option.some.inj h).symm
        have hrpN : N ≤ rp := e3 (p, rp) (hmem_of_hlookup hrp)
        rw [hs2]
        refine ⟨?_, hd1, ?_, ?_⟩
        · show N ≤ (ensureKey_h (hset s.1.1 r ((s.1.1 r).erase term),
            s.1.2) s.2.2 p).1.2 + 1
          omega
        · intro q hq
          rcases List.mem_map.mp hq with ⟨q0, hq0, himg⟩
          by_cases hq0p : q0.1 = p
          · rw [if_pos hq0p] at himg
            rw [← himg]
            show N ≤ (ensureKey_h (hset s.1.1 r ((s.1.1 r).erase term),
              s.1.2) s.2.2 p).1.2
            exact e1
          · rw [if_neg hq0p] at himg
            rw [← himg]
            exact e3 q0 hq0
        · intro r' hr'
          show hset (hset _ rp _) (ensureKey_h (hset s.1.1 r
              ((s.1.1 r).erase term), s.1.2) s.2.2 p).1.2 _ r' = s.1.1 r'
          rw [hset_frame (by omega) _, hset_frame (by omega) _, e4 r' hr']
          exact hset_frame (by omega) _
  · rw [if_neg hterm] at h
    exact Option.noConfusion h

theorem trim_parent_step_h_frame {N : Nat} {term p : String}
    {s s2 : (Heap × Nat) × HDict × HDict}
    (hN : N ≤ s.1.2) (hd1 : ∀ q ∈ s.2.1, N ≤ q.2)
    (hd2 : ∀ q ∈ s.2.2, N ≤ q.2)
    (h : trim_parent_step_h term p s = some s2) :
    N ≤ s2.1.2 ∧ (∀ q ∈ s2.2.1, N ≤ q.2) ∧ (∀ q ∈ s2.2.2, N ≤ q.2) ∧
      (∀ r', r' < N → s2.1.1 r' = s.1.1 r') := by
  unfold trim_parent_step_h at h
  cases hr : hlookup s.2.1 p with
  | none => rw [hr] at h; exact Option.noConfusion h
  | some r =>
    rw [hr] at h
    have h' : trim_parent_body_h term p s r = some s2 := h
    exact trim_parent_body_h_frame hN hd1 hd2
      (hd1 (p, r) (hmem_of_hlookup hr)) h'

theorem foldlM_trim_parent_h_frame (N : Nat) (term : String) :
    ∀ (ps : List String) (s s' : (Heap × Nat) × HDict × HDict),
      N ≤ s.1.2 → (∀ q ∈ s.2.1, N ≤ q.2) → (∀ q ∈ s.2.2, N ≤ q.2) →
      ps.foldlM (fun s p => trim_parent_step_h term p s) s = some s' →
      N ≤ s'.1.2 ∧ (∀ q ∈ s'.2.1, N ≤ q.2) ∧ (∀ q ∈ s'.2.2, N ≤ q.2) ∧
        (∀ r', r' < N → s'.1.1 r' = s.1.1 r') := by
  intro ps
  induction ps with
  | nil =>
    intro s s' h1 h2 h3 h
    rw [← Option.some.inj h]
    exact ⟨h1, h2, h3, fun r _ => rfl⟩
  | cons p ps ih =>
    intro s s' h1 h2 h3 h
    rw [List.foldlM_cons] at h
    cases hstep : trim_parent_step_h term p s with
    | none => rw [hstep] at h; exact Option.noConfusion h
    | some s1 =>
      rw [hstep] at h
      obtain ⟨a1, a2, a3, a4⟩ := trim_parent_step_h_frame h1 h2 h3 hstep
      obtain ⟨b1, b2, b3, b4⟩ := ih s1 s' a1 a2 a3 h
      refine ⟨b1, b2, b3, ?_⟩
      intro r hr
      rw [b4 r hr, a4 r hr]

theorem mem_hdelKey {d : HDict} {k : String} {q : String × Nat}
    (h : q ∈ hdelKey d k) : q ∈ d :=
  (List.eraseP_sublist d).mem h

theorem trim_term_bottom_h_frame {N : Nat} {term : String} {ttd : HDict}
    {s s2 : (Heap × Nat) × HDict × HDict}
    (hN : N ≤ s.1.2) (hd1 : ∀ q ∈ s.2.1, N ≤ q.2)
    (hd2 : ∀ q ∈ s.2.2, N ≤ q.2)
    (h : trim_term_bottom_h term ttd s = some s2) :
    N ≤ s2.1.2 ∧ (∀ q ∈ s2.2.1, N ≤ q.2) ∧ (∀ q ∈ s2.2.2, N ≤ q.2) ∧
      (∀ r', r' < N → s2.1.1 r' = s.1.1 r') := by
  simp only [trim_term_bottom_h] at h
  cases hf : (match hlookup ttd term with
      | some r => s.1.1 r
      | none => []).foldlM (fun s p => trim_parent_step_h term p s) s with
  | none => rw [hf] at h; exact Option.noConfusion h
  | some s' =>
    rw [hf] at h
    have h2 : (if hkeyMem s'.2.2 term then
        some (s'.1, hdelKey s'.2.1 term, hdelKey s'.2.2 term)
      else none) = some s2 := h
    by_cases hk : hkeyMem s'.2.2 term = true
    · rw [if_pos hk] at h2
      obtain ⟨a1, a2, a3, a4⟩ := foldlM_trim_parent_h_frame N term _ s s'
        hN hd1 hd2 hf
      rw [← Option.some.inj h2]
      exact ⟨a1, fun q hq => a2 q (mem_hdelKey hq),
        fun q hq => a3 q (mem_hdelKey hq), a4⟩
    · rw [if_neg hk] at h2
      exact Option.noConfusion h2

theorem foldlM_trim_bottom_h_frame (N : Nat) (ttd : HDict) :
    ∀ (ts : List String) (s s' : (Heap × Nat) × HDict × HDict),
      N ≤ s.1.2 → (∀ q ∈ s.2.1, N ≤ q.2) → (∀ q ∈ s.2.2, N ≤ q.2) →
      ts.foldlM (fun st t => trim_term_bottom_h t ttd st) s = some s' →
      N ≤ s'.1.2 ∧ (∀ q ∈ s'.2.1, N ≤ q.2) ∧ (∀ q ∈ s'.2.2, N ≤ q.2) ∧
        (∀ r', r' < N → s'.1.1 r' = s.1.1 r') := by
  intro ts
  induction ts with
  | nil =>
    intro s s' h1 h2 h3 h
    rw [← Option.some.inj h]
    exact ⟨h1, h2, h3, fun r _ => rfl⟩
  | cons t ts ih =>
    intro s s' h1 h2 h3 h
    rw [List.foldlM_cons] at h
    cases hstep : trim_term_bottom_h t ttd s with
    | none => rw [hstep] at h; exact Option.noConfusion h
    | some s1 =>
      rw [hstep] at h
      obtain ⟨a1, a2, a3, a4⟩ := trim_term_bottom_h_frame h1 h2 h3 hstep
      obtain ⟨b1, b2, b3, b4⟩ := ih s1 s' a1 a2 a3 h
      refine ⟨b1, b2, b3, ?_⟩
      intro r hr
      rw [b4 r hr, a4 r hr]

theorem trim_DAG_bottom_h_eq {s0 : Heap × Nat} {DAG_h : HDict}
    {all_terms trim_terms : List String} {out : (Heap × Nat) × AList}
    (h : trim_DAG_bottom_h s0 DAG_h all_terms trim_terms = some out) :
    ∃ s', trim_terms.foldlM (fun st t => trim_term_bottom_h t
        (DAG_h.filter (fun p => decide (p.1 ∈ all_terms))) st)
        ((reverse_graph_h (reverse_graph_h s0
            (DAG_h.filter (fun p => decide (p.1 ∈ all_terms)))).1
          (DAG_h.filter (fun p => decide (p.1 ∉ all_terms)))).1,
         (reverse_graph_h s0
           (DAG_h.filter (fun p => decide (p.1 ∈ all_terms)))).2,
         (reverse_graph_h (reverse_graph_h s0
            (DAG_h.filter (fun p => decide (p.1 ∈ all_terms)))).1
          (DAG_h.filter (fun p => decide (p.1 ∉ all_terms)))).2)
        = some s' ∧ out.1 = s'.1 := by
  simp only [trim_DAG_bottom_h] at h
  cases hf : trim_terms.foldlM (fun st t => trim_term_bottom_h t
      (DAG_h.filter (fun p => decide (p.1 ∈ all_terms))) st)
      ((reverse_graph_h (reverse_graph_h s0
          (DAG_h.filter (fun p => decide (p.1 ∈ all_terms)))).1
        (DAG_h.filter (fun p => decide (p.1 ∉ all_terms)))).1,
       (reverse_graph_h s0
         (DAG_h.filter (fun p => decide (p.1 ∈ all_terms)))).2,
       (reverse_graph_h (reverse_graph_h s0
          (DAG_h.filter (fun p => decide (p.1 ∈ all_terms)))).1
        (DAG_h.filter (fun p => decide (p.1 ∉ all_terms)))).2) with
  | none => rw [hf] at h; exact Option.noConfusion h
  | some s' =>
    rw [hf] at h
    refine ⟨s', rfl, ?_⟩
    rw [← Option.some.inj h]

/-- C9: the trim entry points never mutate the caller's base DAG.  In the
heap model a parent list of the base DAG is a heap cell referenced by the
DAG's dict; after `trim_DAG_bottom` (whenever it completes) and after
`trim_DAG_top`, every such cell holds exactly its original list — all
writes during trimming go to cells allocated at or after the call (the
reversed working dicts and their fresh merge lists), never through the
slices that alias the base DAG. -/
theorem trim_DAG_frame (h0 : Heap) (n0 : Nat) (DAG_h : HDict)
    (all_terms trim_terms : List String)
    (hrefs : ∀ p ∈ DAG_h, p.2 < n0) :
    (∀ out, trim_DAG_bottom_h (h0, n0) DAG_h all_terms trim_terms
        = some out → ∀ p ∈ DAG_h, out.1.1 p.2 = h0 p.2) ∧
    (∀ p ∈ DAG_h,
      (trim_DAG_top_h (h0, n0) DAG_h all_terms trim_terms).1.1 p.2
        = h0 p.2) := by
  obtain ⟨r1a, r1b, r1c, r1d⟩ := reverse_graph_h_spec n0 (h0, n0)
    (DAG_h.filter (fun p => decide (p.1 ∈ all_terms))) (le_refl n0)
  obtain ⟨r2a, r2b, r2c, r2d⟩ := reverse_graph_h_spec n0
    (reverse_graph_h (h0, n0)
      (DAG_h.filter (fun p => decide (p.1 ∈ all_terms)))).1
    (DAG_h.filter (fun p => decide (p.1 ∉ all_terms))) r1a
  constructor
  · intro out hout p hp
    rcases trim_DAG_bottom_h_eq hout with ⟨s', hf, hout1⟩
    obtain ⟨b1, b2, b3, b4⟩ := foldlM_trim_bottom_h_frame n0 _ trim_terms
      _ s' r2a r1c r2c hf
    have hframe := b4 p.2 (hrefs p hp)
    have h2 := r2d p.2 (hrefs p hp)
    have h1 := r1d p.2 (hrefs p hp)
    rw [hout1]
    calc s'.1.1 p.2 = _ := hframe
      _ = _ := h2
      _ = h0 p.2 := h1
  · intro p hp
    have h2 := r2d p.2 (hrefs p hp)
    have h1 := r1d p.2 (hrefs p hp)
    calc (trim_DAG_top_h (h0, n0) DAG_h all_terms trim_terms).1.1 p.2
        = (reverse_graph_h (h0, n0)
            (DAG_h.filter (fun p => decide (p.1 ∈ all_terms)))).1.1 p.2 := h2
      _ = h0 p.2 := h1

/-- Witness for C9 on the worked example's heap layout. -/
theorem trim_DAG_frame_witness :
    (trim_DAG_top_h
      ((fun r => if r = 0 then ["T3"] else if r = 1 then ["T3"]
         else if r = 2 then ["T2"] else if r = 3 then ["T1"] else []), 5)
      [("gene1", 0), ("gene2", 1), ("T3", 2), ("T2", 3), ("T1", 4)]
      ["T1", "T2", "T3"] ["T1"]).1.1 2
    = (fun r => if r = 0 then ["T3"] else if r = 1 then ["T3"]
        else if r = 2 then ["T2"] else if r = 3 then ["T1"] else []) 2 :=
  (trim_DAG_frame
    (fun r => if r = 0 then ["T3"] else if r = 1 then ["T3"]
      else if r = 2 then ["T2"] else if r = 3 then ["T1"] else []) 5
    [("gene1", 0), ("gene2", 1), ("T3", 2), ("T2", 3), ("T1", 4)]
    ["T1", "T2", "T3"] ["T1"] (by decide)).2 ("T3", 2) (by decide)

end OntoVae
